import Mathlib

/-!
Verification of the natural-language → kubectl translation pipeline
(`app/services`): the normalizer (`CommandRouter.normalize_command`), the
rule-based pattern matcher (`PatternMatchingSystem`), the LLM fallback
boundary (`ComplexCommandProcessor`), the service layer
(`ExecutorService.execute_command`), the HTTP boundary
(`api/v1/endpoints/executor.execute_command`) and the subprocess runner
(`CommandExecutor.execute`).

The Python code is shallowly embedded: strings are `List Char` based
(`String.data`), the handful of regular expressions used by the code are
embedded as explicit scanners with Python `re` semantics (leftmost match,
alternatives in order, `\b` word boundaries, greedy classes), and the two
effectful boundaries (the OpenAI Responses call and the subprocess) are
abstracted as oracles passed in as arguments.  Character classes model
Python's `\s`, `\w` and the pattern class `[가-힣a-zA-Z0-9_-]` on the
ASCII + Hangul domain the program operates on.
-/

/-- Python `\s` (the whitespace class) on the program's character domain. -/
def pyIsSpace (c : Char) : Bool :=
  c == ' ' || c == '\t' || c == '\n' || c == '\r' || c == '\x0b' || c == '\x0c'

/-- Python `\w` (the word class used by `\b`): ASCII alphanumerics, `_`,
and the Hangul ranges (syllables U+AC00–U+D7A3, jamo U+1100–U+11FF,
compatibility jamo U+3130–U+318F). -/
def isWordChar (c : Char) : Bool :=
  ('a' ≤ c && c ≤ 'z') || ('A' ≤ c && c ≤ 'Z') || ('0' ≤ c && c ≤ '9') || c == '_'
    || (0xAC00 ≤ c.toNat && c.toNat ≤ 0xD7A3)
    || (0x1100 ≤ c.toNat && c.toNat ≤ 0x11FF)
    || (0x3130 ≤ c.toNat && c.toNat ≤ 0x318F)

/-- Python `str.lower()` restricted to ASCII case mapping (the Korean
characters the program handles are unaffected by lowercasing). -/
def pyLower (c : Char) : Char :=
  if 65 ≤ c.toNat && c.toNat ≤ 90 then Char.ofNat (c.toNat + 32) else c

/-- Left strip: drop leading whitespace (half of Python `str.strip()`). -/
def lstripWs (cs : List Char) : List Char := cs.dropWhile pyIsSpace

/-- Right strip: drop trailing whitespace (the other half of `str.strip()`). -/
def rstripWs : List Char → List Char
  | [] => []
  | c :: cs =>
    match rstripWs cs with
    | [] => if pyIsSpace c then [] else [c]
    | r => c :: r

/-- Python `str.strip()`. -/
def pyStrip (cs : List Char) : List Char := rstripWs (lstripWs cs)

/-- Python `str.strip()` packaged on `String`. -/
def pyStripStr (s : String) : String := String.mk (pyStrip s.data)

/-- Python `re.sub(r"\s+", " ", ·)`: collapse every whitespace run to a
single space. -/
def collapseWs : List Char → List Char
  | [] => []
  | [c] => [if pyIsSpace c then ' ' else c]
  | c :: d :: cs =>
    if pyIsSpace c && pyIsSpace d then collapseWs (d :: cs)
    else (if pyIsSpace c then ' ' else c) :: collapseWs (d :: cs)

/-- The sentence-ending / politeness suffixes stripped by the normalizer
(`CommandRouter.normalize_command`, the `endings` pattern), in the
pattern's alternation order. -/
def ENDINGS : List String :=
  ["부탁해", "봐줘", "보여줘", "확인해줘", "알려줘", "줄래", "볼래", "주세요", "해봐", "줘", "좀"]

/-- The grammatical particles removed by the normalizer (the `particle`
pattern `\b(을|를|...)\b`), in the pattern's alternation order. -/
def PARTICLES : List String :=
  ["을", "를", "이", "가", "은", "는", "에", "에서", "으로", "로", "와", "과", "도", "만", "까지", "부터"]

/-- Does the regex `(부탁해|봐줘|...)\s*$` match starting exactly at this
position (some ending is a literal prefix here and only whitespace
follows it)? -/
def endingMatchAt (cs : List Char) : Bool :=
  ENDINGS.any fun e => e.data.isPrefixOf cs && ((cs.drop e.data.length).all pyIsSpace)

/-- Python `endings.sub("", ·)`: delete the leftmost match of
`(부탁해|봐줘|...)\s*$`.  Because the match is anchored at the end of the
string, deleting it truncates the string at the match position. -/
def endingsSub : List Char → List Char
  | [] => []
  | c :: cs => if endingMatchAt (c :: cs) then [] else c :: endingsSub cs

/-- Is the position after a candidate match a `\b` boundary (end of
string or a non-word character)?  All alternation members start with word
characters, so a boundary after them means exactly this. -/
def boundaryAfter : List Char → Bool
  | [] => true
  | c :: _ => !isWordChar c

/-- Try the particle alternatives in order at a fixed position: the first
one that is a literal prefix and is followed by a `\b` boundary wins, and
the scan resumes after it (Python `re` alternation semantics). -/
def tryAlts (alts : List String) (cs : List Char) : Option (List Char) :=
  match alts with
  | [] => none
  | a :: rest =>
    if a.data.isPrefixOf cs && boundaryAfter (cs.drop a.data.length) then
      some (cs.drop a.data.length)
    else tryAlts rest cs

/-- Try to match `\b(을|를|...)\b` at this position (the `\b` before the
match is handled by the caller's left-context flag). -/
def tryParticle (cs : List Char) : Option (List Char) := tryAlts PARTICLES cs

/-- Python `particle.sub("", ·)`: one left-to-right pass over the string,
removing every `\b`-delimited particle token.  `prev` records whether the
character just before the current position (in the original string) is a
word character; every particle starts with a word character, so a match
can only begin where `prev` is false.  The pass is written with a fuel
parameter (structural recursion, so that it evaluates definitionally);
a consumed match shortens the list by at least one character, so fuel
equal to the list length never runs out. -/
def particleSubFuel : Nat → Bool → List Char → List Char
  | 0, _, l => l
  | _ + 1, _, [] => []
  | fuel + 1, true, c :: cs => c :: particleSubFuel fuel (isWordChar c) cs
  | fuel + 1, false, c :: cs =>
    match tryParticle (c :: cs) with
    | some rest => particleSubFuel fuel true rest
    | none => c :: particleSubFuel fuel (isWordChar c) cs

/-- The particle-removal pass, fuelled with the list length. -/
def particleSubAux (prev : Bool) (l : List Char) : List Char :=
  particleSubFuel l.length prev l

/-- The normalizer `CommandRouter.normalize_command`: strip and lowercase,
delete one trailing politeness suffix, delete whole-token particles,
collapse whitespace runs, strip again. -/
def normalize_command (raw_command : String) : String :=
  let s := (pyStrip raw_command.data).map pyLower
  let s := endingsSub s
  let s := particleSubAux false s
  let s := collapseWs s
  String.mk (pyStrip s)

/-- Substring test: does `needle` occur contiguously in the list?  This is
`re.search` of an escaped literal (and Python's `in`). -/
def listContainsSub (needle : List Char) : List Char → Bool
  | [] => needle.isEmpty
  | c :: cs => needle.isPrefixOf (c :: cs) || listContainsSub needle cs

/-- Python `str.startswith`. -/
def pyStartsWith (s pre : String) : Bool := pre.data.isPrefixOf s.data

/-- One entry of `SIMPLE_COMMAND_DEFINITION` (`pattern_matching_system.py`). -/
structure CommandDefinition where
  intent_key : String
  kubectl_template : String
  keywords : List String

/-- The fixed intent table `SIMPLE_COMMAND_DEFINITION`, in source order. -/
def SIMPLE_COMMAND_DEFINITION : List CommandDefinition :=
  [ { intent_key := "pod_list"
      kubectl_template := "kubectl get pods"
      keywords := ["pod 목록", "파드 목록", "pod 리스트", "파드 리스트"] }
  , { intent_key := "service_status"
      kubectl_template := "kubectl get services"
      keywords := ["서비스 상태", "서비스 목록", "service 상태", "서비스 리스트"] }
  , { intent_key := "pod_logs"
      kubectl_template := "kubectl logs -f --tail=10 {target}"
      keywords := ["로그 조회", "log 확인", "로그 보기", "로그좀"] } ]

/-- The compiled pattern of one intent is the alternation of its escaped
keywords; `pattern.search` hits iff some keyword occurs as a substring. -/
def patternSearch (d : CommandDefinition) (text : String) : Bool :=
  d.keywords.any fun kw => listContainsSub kw.data text.data

/-- The first-match loop over `self.patterns` in `process_command`
(insertion order = table order); `none` models `best_match is None`. -/
def matchIntent (normalized_command : String) : Option String :=
  (SIMPLE_COMMAND_DEFINITION.find? fun d => patternSearch d normalized_command).map
    (·.intent_key)

/-- The value class `[가-힣a-zA-Z0-9_-]` of the filter-extraction regexes. -/
def isFilterValueChar (c : Char) : Bool :=
  ('a' ≤ c && c ≤ 'z') || ('A' ≤ c && c ≤ 'Z') || ('0' ≤ c && c ≤ '9')
    || c == '_' || c == '-' || (0xAC00 ≤ c.toNat && c.toNat ≤ 0xD7A3)

/-- After a marker: `\s*([가-힣a-zA-Z0-9_-]+)` — skip whitespace greedily,
then capture a maximal nonempty run of value characters.  The two classes
are disjoint, so Python's backtracking never revisits the `\s*`. -/
def captureValue (cs : List Char) : Option String :=
  let rest := cs.dropWhile pyIsSpace
  let v := rest.takeWhile isFilterValueChar
  if v.isEmpty then none else some (String.mk v)

/-- Try the marker alternatives in order at one position; on a marker hit
whose capture fails, Python tries the next alternative at the same
position. -/
def searchMarkerValueAlts (alts : List String) (cs : List Char) : Option String :=
  match alts with
  | [] => none
  | a :: rest =>
    if a.data.isPrefixOf cs then
      match captureValue (cs.drop a.data.length) with
      | some v => some v
      | none => searchMarkerValueAlts rest cs
    else searchMarkerValueAlts rest cs

/-- `re.search` for `(?:marker₁|marker₂|...)\s*([가-힣a-zA-Z0-9_-]+)`:
leftmost position wins, alternatives in order, group 1 returned. -/
def searchMarkerValue (alts : List String) : List Char → Option String
  | [] => none
  | c :: cs =>
    match searchMarkerValueAlts alts (c :: cs) with
    | some v => some v
    | none => searchMarkerValue alts cs

/-- Does `(모든|전체)\s*(네임스페이스)` match at this position? -/
def allNsAt (cs : List Char) : Bool :=
  ["모든", "전체"].any fun a =>
    a.data.isPrefixOf cs
      && "네임스페이스".data.isPrefixOf ((cs.drop a.data.length).dropWhile pyIsSpace)

/-- `re.search` for the all-namespaces marker `(모든|전체)\s*(네임스페이스)`. -/
def searchAllNs : List Char → Bool
  | [] => false
  | c :: cs => allNsAt (c :: cs) || searchAllNs cs

/-- Marker alternatives of the `namespace` filter pattern
`(?:네임스페이스|nm|ns)\s*(...)`. -/
def NAMESPACE_MARKERS : List String := ["네임스페이스", "nm", "ns"]

/-- Marker alternatives of the `label` filter pattern `(?:앱|서비스|이름)\s*(...)`. -/
def LABEL_MARKERS : List String := ["앱", "서비스", "이름"]

/-- Marker alternatives of the `container` filter pattern `(?:컨테이너|c)\s*(...)`. -/
def CONTAINER_MARKERS : List String := ["컨테이너", "c"]

/-- The filter dictionary built by `_extract_filters`; `ns` models the
`"namespace"` key (a Lean keyword). -/
structure Filters where
  all_namespaces : Bool
  ns : Option String
  label : Option String
  container : Option String
deriving DecidableEq

/-- `PatternMatchingSystem._extract_filters`: the all-namespaces marker is
tested first and, when it hits, namespace extraction is skipped entirely;
label and container extraction always run. -/
def extract_filters (command : String) : Filters :=
  let cs := command.data
  let allNs := searchAllNs cs
  { all_namespaces := allNs
    ns := if allNs then none else searchMarkerValue NAMESPACE_MARKERS cs
    label := searchMarkerValue LABEL_MARKERS cs
    container := searchMarkerValue CONTAINER_MARKERS cs }

/-- The synonym table `CANONICAL_TARGET_MAP`. -/
def CANONICAL_TARGET_MAP : List (String × String) :=
  [ ("파드", "pod"), ("파드들", "pod"), ("pod", "pod"), ("pods", "pod")
  , ("서비스", "service"), ("서비스들", "service"), ("service", "service"), ("services", "service")
  , ("로그", "logs"), ("로그들", "logs"), ("log", "logs"), ("logs", "logs") ]

/-- `PatternMatchingSystem._canonicalize_target`: pure dictionary lookup,
identity when the value is absent from the table. -/
def canonicalize_target : Option String → Option String
  | none => none
  | some v => some ((((CANONICAL_TARGET_MAP.find? fun p => p.1 == v)).map Prod.snd).getD v)

/-- Python truthiness of an optional string (`if value:`): present and
nonempty. -/
def optTruthy : Option String → Bool
  | none => false
  | some s => !s.data.isEmpty

/-- Python f-string interpolation of an optional string: `None` prints as
the four-letter word `"None"`. -/
def pyFormatOpt : Option String → String
  | none => "None"
  | some s => s

/-- Python `"{target}".format` application for the template fallback
branch (`label_value or ""`). -/
def pyOrEmpty : Option String → String
  | none => ""
  | some s => s

/-- Python `" ".join`. -/
def pyJoin (sep : String) : List String → String
  | [] => ""
  | [x] => x
  | x :: xs => x ++ sep ++ pyJoin sep xs

/-- Replace each occurrence of the eight-character placeholder `{target}`
(Python `str.format(target=...)`, specialized to the single placeholder
the table uses). -/
def formatTargetList (target : List Char) : List Char → List Char
  | [] => []
  | c :: cs =>
    if "{target}".data.isPrefixOf (c :: cs) then
      target ++ formatTargetList target (cs.drop 7)
    else c :: formatTargetList target cs
  termination_by l => l.length
  decreasing_by
    all_goals simp_wf
    all_goals omega

/-- Python `str.format(target=...)` on `String`. -/
def formatTarget (template : String) (target : String) : String :=
  String.mk (formatTargetList target.data template.data)

/-- The intent-specific base command of `_build_command`. -/
def buildBaseCmd (intent_key : String) (defn : CommandDefinition)
    (label_value : Option String) : String :=
  if intent_key == "pod_list" then
    if optTruthy label_value then "kubectl get pods -l app=" ++ pyFormatOpt label_value
    else "kubectl get pods"
  else if intent_key == "service_status" then
    if optTruthy label_value then "kubectl get services " ++ pyFormatOpt label_value
    else "kubectl get services"
  else if intent_key == "pod_logs" then
    "kubectl logs -f --tail=10 " ++ pyFormatOpt label_value
  else formatTarget defn.kubectl_template (pyOrEmpty label_value)

/-- The `parts` list of `_build_command`: base command, then `-n`, then
`-A`, then `-c`, each appended under Python truthiness of its filter. -/
def build_command_parts (intent_key : String) (defn : CommandDefinition)
    (filters : Filters) : List String :=
  let label_value := canonicalize_target filters.label
  let base_cmd := buildBaseCmd intent_key defn label_value
  let parts := [base_cmd]
  let parts := if optTruthy filters.ns then parts ++ ["-n " ++ pyFormatOpt filters.ns] else parts
  let parts := if filters.all_namespaces then parts ++ ["-A"] else parts
  let parts :=
    if optTruthy filters.container then parts ++ ["-c " ++ pyFormatOpt filters.container]
    else parts
  parts

/-- `PatternMatchingSystem._build_command`: look the intent up in the
table (an unknown intent short-circuits to `kubectl <intent>` with no
flags), build the base command, then join the appended flags. -/
def build_command (intent_key : String) (filters : Filters) : String :=
  match SIMPLE_COMMAND_DEFINITION.find? fun d => d.intent_key == intent_key with
  | none => "kubectl " ++ intent_key
  | some defn => pyJoin " " (build_command_parts intent_key defn filters)

/-- Token-usage record (`UsageInfo` in `services/types.py`). -/
structure UsageInfo where
  input_tokens : Nat
  output_tokens : Nat
  cached_tokens : Nat
deriving DecidableEq

/-- `GeneratedCommand` in `services/types.py`. -/
structure GeneratedCommand where
  command : String
  reason : String
  title : String
  usage : Option UsageInfo
deriving DecidableEq

/-- The runtime type of `PatternMatchingSystem.process_command`'s result:
a plain string (rule-built command or fallback sentinel) or a
`GeneratedCommand` object from the fallback. -/
inductive ProcessResult where
  | str : String → ProcessResult
  | gen : GeneratedCommand → ProcessResult
deriving DecidableEq

/-- The `intent_map` dictionary local to `process_command`. -/
def intent_map (key : String) : Option (String × Option String) :=
  if key == "pod_list" then some ("get", some "pods")
  else if key == "service_status" then some ("get", some "services")
  else if key == "pod_logs" then some ("logs", none)
  else none

/-- `PatternMatchingSystem.process_command`, with the
`ComplexCommandProcessor` dependency abstracted as the function `fb`:
first intent match wins; no match delegates; a log intent without an
extractable label delegates; otherwise the rule-built command string is
returned. -/
def process_command (fb : String → ProcessResult) (normalized_command : String) :
    ProcessResult :=
  match matchIntent normalized_command with
  | none => fb normalized_command
  | some best_match =>
    let intentPair := (intent_map best_match).getD ("", none)
    let filters := extract_filters normalized_command
    if intentPair.1 == "logs" && !optTruthy filters.label then fb normalized_command
    else .str (build_command best_match filters)

/-- Outcome of `ExecutorService.execute_command` at the service boundary:
either the returned `GeneratedCommand` or the raised `AppException`
message. -/
inductive BoundaryResult where
  | success : GeneratedCommand → BoundaryResult
  | appError : String → BoundaryResult
deriving DecidableEq

/-- `ExecutorService.execute_command` (`agent_service.py`): normalize,
run the pattern system, then the `isinstance(generated, str)` test turns
every string result into a raised `AppException`; a `GeneratedCommand`
with a bad prefix is also rejected; otherwise it is returned and its
usage (when present) is logged.  The second component records the
`UsageInfo` passed to `_log_usage`, `none` when `_log_usage` is not
called. -/
def execute_command (fb : String → ProcessResult) (raw_command : String) :
    BoundaryResult × Option UsageInfo :=
  let normalized := normalize_command raw_command
  match process_command fb normalized with
  | .str s => (.appError s, none)
  | .gen g =>
    if !pyStartsWith g.command "kubectl " then
      (.appError "kubectl # UNABLE_TO_GENERATE", none)
    else (.success g, g.usage)

/-- The response model `CommandResponse` (`schemas/agent.py`), without the
pass-through `session_id`. -/
structure CommandResponse where
  success : Bool
  command : Option String
  reason : Option String
  title : Option String
  error_message : Option String
deriving DecidableEq

/-- The endpoint `execute_command` (`api/v1/endpoints/executor.py`): a
service success maps to `success=true` with the three fields populated;
an `AppException` maps to `success=false` with the message in
`error_message` and the three fields null. -/
def api_execute_command (fb : String → ProcessResult) (raw_command : String) :
    CommandResponse :=
  match (execute_command fb raw_command).1 with
  | .success g => ⟨true, some g.command, some g.reason, some g.title, none⟩
  | .appError m => ⟨false, none, none, none, some m⟩

/-- The structured-output schema `KubectlStructuredOutput`
(`complex_command_processor.py`): three required string fields. -/
structure KubectlStructuredOutput where
  command : String
  reason : String
  title : String
deriving DecidableEq

/-- Abstraction of one OpenAI Responses API result, holding exactly the
attributes `_call_responses` and `_extract_structured_payload` read:
`status`, `incomplete_details.reason`, `output_parsed`, a refusal content
item (if any), and `usage`. -/
structure ApiResponse where
  status : Option String
  incomplete_reason : Option String
  output_parsed : Option KubectlStructuredOutput
  refusal : Option String
  usage : Option UsageInfo

/-- The value `_call_responses` hands to `process`: a parsed structured
output or a sentinel error string. -/
inductive CallPayload where
  | parsed : KubectlStructuredOutput → CallPayload
  | sentinel : String → CallPayload
deriving DecidableEq

/-- Intermediate result of `_extract_structured_payload`. -/
inductive PayloadResult where
  | parsed : KubectlStructuredOutput → PayloadResult
  | refusalMsg : String → PayloadResult
  | empty : PayloadResult

/-- `ComplexCommandProcessor._extract_structured_payload`: a parsed model
wins; otherwise a refusal content item produces the `REFUSED` message;
otherwise nothing. -/
def extract_structured_payload (r : ApiResponse) : PayloadResult :=
  match r.output_parsed with
  | some p => .parsed p
  | none =>
    match r.refusal with
    | some msg => .refusalMsg ("kubectl # REFUSED: " ++ msg)
    | none => .empty

/-- The initial output-token budget (`self.max_output_tokens = 512`). -/
def max_output_tokens : Nat := 512

/-- The non-incomplete tail of `_call_responses`: parse the payload, fold
a refusal into its sentinel (`payload or "kubectl # REFUSED"`), and map an
empty payload to the empty-response sentinel. -/
def finishPayload (r : ApiResponse) (u : Option UsageInfo) :
    CallPayload × Option UsageInfo :=
  match extract_structured_payload r with
  | .parsed p => (.parsed p, u)
  | .refusalMsg s => (.sentinel s, u)
  | .empty => (.sentinel "kubectl # UNABLE_TO_GENERATE: empty response", u)

/-- `ComplexCommandProcessor._call_responses`, with the OpenAI client
abstracted as the oracle `invoke` mapping a requested `max_output_tokens`
budget to either an exception message (`.error`) or an `ApiResponse`.
The third component records the budgets of the calls actually issued.
An incomplete first result with reason `max_output_tokens` triggers
exactly one retry at double budget; any other incompleteness reason, and
any incompleteness of the retried call, is surfaced as the `INCOMPLETE`
sentinel.  An exception is caught and surfaced as `LLM_CALL_FAILED`, with
`usage_info` keeping whatever the latest successful assignment stored. -/
def call_responses (invoke : Nat → Except String ApiResponse) :
    CallPayload × Option UsageInfo × List Nat :=
  match invoke max_output_tokens with
  | .error e => (.sentinel ("kubectl # LLM_CALL_FAILED: " ++ e), none, [max_output_tokens])
  | .ok r1 =>
    let u1 := r1.usage
    if r1.status == some "incomplete" then
      let reason1 := r1.incomplete_reason.getD "unknown"
      if reason1 == "max_output_tokens" then
        match invoke (max_output_tokens * 2) with
        | .error e =>
          (.sentinel ("kubectl # LLM_CALL_FAILED: " ++ e), u1,
            [max_output_tokens, max_output_tokens * 2])
        | .ok r2 =>
          let u2 := r2.usage
          if r2.status == some "incomplete" then
            (.sentinel ("kubectl # INCOMPLETE: " ++ r2.incomplete_reason.getD "unknown"), u2,
              [max_output_tokens, max_output_tokens * 2])
          else
            let pu := finishPayload r2 u2
            (pu.1, pu.2, [max_output_tokens, max_output_tokens * 2])
      else
        (.sentinel ("kubectl # INCOMPLETE: " ++ reason1), u1, [max_output_tokens])
    else
      let pu := finishPayload r1 u1
      (pu.1, pu.2, [max_output_tokens])

/-- Scan for the first occurrence of `sep`: the part before it and, when
found, the remainder after it (the building block of Python `str.split`). -/
def pySplitGo (sep : List Char) : List Char → List Char × Option (List Char)
  | [] => ([], none)
  | c :: cs =>
    if sep.isPrefixOf (c :: cs) then ([], some ((c :: cs).drop sep.length))
    else
      let pr := pySplitGo sep cs
      (c :: pr.1, pr.2)

/-- The code-fence handling of `_extract_kubectl_command`: when ```` ``` ````
occurs, `text.split("```")` has at least two parts and the text becomes
the stripped second part (the segment after the first fence). -/
def extractFence (text : List Char) : List Char :=
  match pySplitGo "```".data text with
  | (_, none) => text
  | (_, some rest) => pyStrip (pySplitGo "```".data rest).1

/-- Python `str.splitlines` restricted to the `\n`, `\r\n` and `\r`
terminators. -/
def pySplitlinesAux (cur : List Char) : List Char → List (List Char)
  | [] => if cur.isEmpty then [] else [cur.reverse]
  | '\r' :: '\n' :: rest => cur.reverse :: pySplitlinesAux [] rest
  | '\n' :: rest => cur.reverse :: pySplitlinesAux [] rest
  | '\r' :: rest => cur.reverse :: pySplitlinesAux [] rest
  | c :: rest => pySplitlinesAux (c :: cur) rest

/-- Python `str.splitlines`. -/
def pySplitlines (cs : List Char) : List (List Char) := pySplitlinesAux [] cs

/-- `ComplexCommandProcessor._extract_kubectl_command`: strip; unwrap the
first code fence if present; return the first stripped line that starts
with `kubectl `; otherwise return the (fence-unwrapped) text — the
final two `return text` statements of the source coincide. -/
def extract_kubectl_command (raw : String) : String :=
  let text := pyStrip raw.data
  let text := extractFence text
  match (pySplitlines text).findSome? fun l =>
      let l2 := pyStrip l
      if "kubectl ".data.isPrefixOf l2 then some l2 else none with
  | some l => String.mk l
  | none => String.mk text

/-- `ComplexCommandProcessor.process`: run `_call_responses`; a string
result is returned as-is (a sentinel); a parsed result has its command
extracted and prefix-checked, a failed check yielding the
`UNABLE_TO_GENERATE` sentinel, a passed check yielding a
`GeneratedCommand` carrying the captured usage. -/
def cc_process (invoke : Nat → Except String ApiResponse) (command : String) :
    ProcessResult :=
  let ru := call_responses invoke
  match ru.1 with
  | .sentinel s => .str s
  | .parsed p =>
    let kubectl_cmd := extract_kubectl_command p.command
    if !pyStartsWith kubectl_cmd "kubectl " then .str "kubectl # UNABLE_TO_GENERATE"
    else .gen ⟨kubectl_cmd, p.reason, p.title, ru.2.1⟩

/-- `CommandExecutionResult` (`services/executor.py`). -/
structure CommandExecutionResult where
  command : String
  return_code : Int
  stdout : String
  stderr : String
deriving DecidableEq

/-- Abstraction of one subprocess run as `CommandExecutor.execute`
observes it: either `communicate()` returns the two streams and a
(possibly missing) return code within the timeout, or `asyncio.wait_for`
times out. -/
inductive SubprocessOutcome where
  | completes (stdout stderr : String) (returncode : Option Int)
  | timesOut

/-- Outcome of `CommandExecutor.execute`: a normal result, or the
re-raised `TimeoutError` after `process.kill()` was called. -/
inductive ExecuteResult where
  | ok : CommandExecutionResult → ExecuteResult
  | timeoutRaised (killed : Bool) : ExecuteResult
deriving DecidableEq

/-- `CommandExecutor.execute`: on completion, both streams are stripped
and a missing return code becomes `-1`; on timeout the subprocess is
killed and the `TimeoutError` propagates. -/
def CommandExecutor.execute (command : String) (proc : SubprocessOutcome) :
    ExecuteResult :=
  match proc with
  | .timesOut => .timeoutRaised true
  | .completes stdout_s stderr_s rc =>
    .ok { command := command
          return_code := rc.getD (-1)
          stdout := pyStripStr stdout_s
          stderr := pyStripStr stderr_s }

/-- A string with no leading whitespace. -/
def lstripped : List Char → Bool
  | [] => true
  | c :: _ => !pyIsSpace c

/-- A string with no trailing whitespace. -/
def rstrippedB : List Char → Bool
  | [] => true
  | [c] => !pyIsSpace c
  | _ :: c :: cs => rstrippedB (c :: cs)

/-- A string whose whitespace is already collapsed: every whitespace
character is a plain space and no two adjacent characters are both
whitespace. -/
def collapsedB : List Char → Bool
  | [] => true
  | [c] => !pyIsSpace c || c == ' '
  | c :: d :: cs =>
    (!pyIsSpace c || c == ' ') && !(pyIsSpace c && pyIsSpace d) && collapsedB (d :: cs)

/-- A string unchanged by lowercasing. -/
def lowerFixed (l : List Char) : Bool := l.all fun c => pyLower c == c

/-- Does the particle pattern `\b(을|를|...)\b` match anywhere in the
string, given the word-ness of the character preceding it? -/
def hasParticleMatch : Bool → List Char → Bool
  | _, [] => false
  | prev, c :: cs => (!prev && (tryParticle (c :: cs)).isSome) || hasParticleMatch (isWordChar c) cs

/-- Does the endings pattern `(부탁해|...)\s*$` match anywhere in the string? -/
def hasEndingMatch : List Char → Bool
  | [] => false
  | c :: cs => endingMatchAt (c :: cs) || hasEndingMatch cs

/-- Does the string end with one of the politeness suffixes? -/
def endsWithEnding (s : String) : Bool := ENDINGS.any fun e => e.data.isSuffixOf s.data

/-- Identity fallback stub (returns its input as a plain string), used to
close concrete evaluations of the pipeline in which the fallback is never
reached or its exact behavior is irrelevant. -/
def fbId : String → ProcessResult := fun s => ProcessResult.str s

/-- Fixture: a first response that is incomplete with reason
`max_output_tokens`. -/
def respIncompleteFirst : ApiResponse :=
  { status := some "incomplete", incomplete_reason := some "max_output_tokens"
    output_parsed := none, refusal := none, usage := some ⟨100, 512, 0⟩ }

/-- Fixture: a retried response that is again incomplete with reason
`max_output_tokens`. -/
def respIncompleteSecond : ApiResponse :=
  { status := some "incomplete", incomplete_reason := some "max_output_tokens"
    output_parsed := none, refusal := none, usage := some ⟨100, 1024, 0⟩ }

/-- Fixture: a response that is incomplete for a reason other than the
output-size limit. -/
def respIncompleteOther : ApiResponse :=
  { status := some "incomplete", incomplete_reason := some "content_filter"
    output_parsed := none, refusal := none, usage := some ⟨7, 8, 1⟩ }

/-- Fixture oracle: incomplete (output-size limit) on the first budget,
incomplete again on the doubled budget. -/
def invTwiceIncomplete : Nat → Except String ApiResponse := fun n =>
  if n == max_output_tokens then .ok respIncompleteFirst else .ok respIncompleteSecond

/-- Fixture oracle: always incomplete for a non-size reason. -/
def invOtherIncomplete : Nat → Except String ApiResponse := fun _ =>
  .ok respIncompleteOther

/-- Fixture: a parsed structured output whose command does not carry the
kubectl prefix. -/
def outBadCommand : KubectlStructuredOutput :=
  { command := "echo hi", reason := "그냥", title := "Echo" }

/-- Fixture oracle: a completed response parsing to `outBadCommand`. -/
def invBadCommand : Nat → Except String ApiResponse := fun _ =>
  .ok { status := some "completed", incomplete_reason := none
        output_parsed := some outBadCommand, refusal := none, usage := none }

/-- Fixture oracle: a refusal response that nevertheless reports token
usage. -/
def invRefusalWithUsage : Nat → Except String ApiResponse := fun _ =>
  .ok { status := some "completed", incomplete_reason := none
        output_parsed := none, refusal := some "안전하지 않음", usage := some ⟨10, 5, 2⟩ }

/-! ## Theorems -/

/-- Shared helper: whenever the all-namespaces marker is detected, the
extractor skips namespace extraction entirely. -/
theorem extract_filters_ns_of_allNs (command : String)
    (h : (extract_filters command).all_namespaces = true) :
    (extract_filters command).ns = none := by
  simp only [extract_filters] at h ⊢
  rw [h]
  simp

/-- C9: for every input text, the extracted filter set satisfies the
mutual-exclusion invariant — if the all-namespaces scope marker is
detected (`all_namespaces = true`) then no namespace value is extracted,
regardless of whether the text also contains a namespace-marker token
with a value. -/
theorem scopeAll_excludes_namespace (command : String)
    (h : (extract_filters command).all_namespaces = true) :
    (extract_filters command).ns = none :=
  extract_filters_ns_of_allNs command h

/-- Witness for `scopeAll_excludes_namespace`: the text contains both the
all-namespaces marker and a namespace-marker token (`ns dev`), yet no
namespace is extracted. -/
theorem scopeAll_excludes_namespace_witness :
    (extract_filters "모든 네임스페이스 ns dev 파드 목록").all_namespaces = true ∧
    (extract_filters "모든 네임스페이스 ns dev 파드 목록").ns = none :=
  ⟨by decide, scopeAll_excludes_namespace "모든 네임스페이스 ns dev 파드 목록" (by decide)⟩

/-- C7: every normalized text that matches the log-retrieval intent but
yields no extractable selector label is delegated to the fallback
adapter; the log template is never used. -/
theorem pod_logs_without_label_delegates (fb : String → ProcessResult)
    (normalized : String)
    (hmatch : matchIntent normalized = some "pod_logs")
    (hlabel : optTruthy (extract_filters normalized).label = false) :
    process_command fb normalized = fb normalized := by
  unfold process_command
  rw [hmatch]
  simp [intent_map, hlabel]

/-- Witness for `pod_logs_without_label_delegates`: the normalized text
`"로그 조회"` matches the log intent, has no label, and is delegated. -/
theorem pod_logs_without_label_delegates_witness :
    matchIntent "로그 조회" = some "pod_logs" ∧
    process_command fbId "로그 조회" = fbId "로그 조회" :=
  ⟨by decide, pod_logs_without_label_delegates fbId "로그 조회" (by decide) (by decide)⟩

/-- C1 (code bug): on the pure rule path the pattern system returns the
built command as a plain string, and `ExecutorService.execute_command`'s
`isinstance(generated, str)` check treats every such string as a failure:
for the input `"파드 목록 좀 보여줘"` the rules build `"kubectl get pods"`,
yet the service raises `AppException` with that very command as the
message, so the boundary answers `success=false` with all three fields
null and the command in `errorMessage` — contradicting the specified
rule-path contract (`success=true`, command populated, `errorMessage`
null). -/
theorem rule_path_rejected_at_boundary :
    process_command fbId (normalize_command "파드 목록 좀 보여줘") =
      ProcessResult.str "kubectl get pods" ∧
    execute_command fbId "파드 목록 좀 보여줘" =
      (BoundaryResult.appError "kubectl get pods", none) ∧
    api_execute_command fbId "파드 목록 좀 보여줘" =
      ⟨false, none, none, none, some "kubectl get pods"⟩ := by
  refine ⟨by decide, by decide, by decide⟩

/-- C3 counterexample: for the input `"api 서비스 상태 확인해줘"` the intent
is indeed `service_status`, but the pipeline does not produce
`"kubectl get services api"` — the label regex captures the token after
the `서비스` marker, not the `api` token before it. -/
theorem service_status_example_counterexample :
    matchIntent (normalize_command "api 서비스 상태 확인해줘") = some "service_status" ∧
    process_command fbId (normalize_command "api 서비스 상태 확인해줘") ≠
      ProcessResult.str "kubectl get services api" := by
  refine ⟨by decide, by decide⟩

/-- C3 amended: for the input `"api 서비스 상태 확인해줘"` the pipeline
classifies the intent as `service_status` and extracts as label the token
following the `서비스` marker — `"상태"`, which the synonym table leaves
unchanged — producing `"kubectl get services 상태"` (the `api` token
preceding the marker is never extracted). -/
theorem service_status_example_amended :
    matchIntent (normalize_command "api 서비스 상태 확인해줘") = some "service_status" ∧
    (extract_filters (normalize_command "api 서비스 상태 확인해줘")).label = some "상태" ∧
    canonicalize_target (some "상태") = some "상태" ∧
    process_command fbId (normalize_command "api 서비스 상태 확인해줘") =
      ProcessResult.str "kubectl get services 상태" := by
  refine ⟨by decide, by decide, by decide, by decide⟩

/-- C2 counterexample: for the intent `pod_list` (not the log intent) with
an extracted container value, the built command does contain the
container flag: the full rule pipeline on `"파드 목록 컨테이너 main"`
yields `"kubectl get pods -c main"`. -/
theorem container_flag_on_pod_list_counterexample :
    matchIntent "파드 목록 컨테이너 main" = some "pod_list" ∧
    (extract_filters "파드 목록 컨테이너 main").container = some "main" ∧
    process_command fbId "파드 목록 컨테이너 main" =
      ProcessResult.str "kubectl get pods -c main" ∧
    listContainsSub "-c ".data "kubectl get pods -c main".data = true := by
  refine ⟨by decide, by decide, by decide, by decide⟩

theorem pyStartsWith_append_of_le (s x p : String)
    (h : pyStartsWith s p = false) (hlen : p.data.length ≤ s.data.length) :
    pyStartsWith (s ++ x) p = false := by
  simp only [pyStartsWith, String.data_append] at *
  by_contra hc
  rw [Bool.not_eq_false] at hc
  have hpre := (List.isPrefixOf_iff_prefix).mp hc
  have hsa : s.data <+: s.data ++ x.data := List.prefix_append _ _
  have := List.prefix_of_prefix_length_le hpre hsa hlen
  rw [(List.isPrefixOf_iff_prefix).mpr this] at h
  exact Bool.true_eq_false.mp h

theorem append_ne_of_data_longer (s x t : String)
    (h : t.data.length < s.data.length) : s ++ x ≠ t := by
  intro he
  have : (s ++ x).data.length = t.data.length := by rw [he]
  rw [String.data_append, List.length_append] at this
  omega

theorem intent_key_cases (intent_key : String) (defn : CommandDefinition)
    (hfind : SIMPLE_COMMAND_DEFINITION.find? (fun d => d.intent_key == intent_key) = some defn) :
    intent_key = "pod_list" ∨ intent_key = "service_status" ∨ intent_key = "pod_logs" := by
  simp only [SIMPLE_COMMAND_DEFINITION, List.find?] at hfind
  by_cases h1 : ("pod_list" == intent_key) = true
  · exact Or.inl (beq_iff_eq.mp h1).symm
  by_cases h2 : ("service_status" == intent_key) = true
  · exact Or.inr (Or.inl (beq_iff_eq.mp h2).symm)
  by_cases h3 : ("pod_logs" == intent_key) = true
  · exact Or.inr (Or.inr (beq_iff_eq.mp h3).symm)
  · rw [Bool.not_eq_true] at h1 h2 h3
    simp [h1, h2, h3] at hfind

theorem buildBaseCmd_props (intent_key : String) (defn : CommandDefinition) (lv : Option String)
    (hik : intent_key = "pod_list" ∨ intent_key = "service_status" ∨ intent_key = "pod_logs") :
    pyStartsWith (buildBaseCmd intent_key defn lv) "-n " = false ∧
    buildBaseCmd intent_key defn lv ≠ "-A" := by
  rcases hik with h | h | h <;> subst h <;>
    by_cases hl : optTruthy lv = true <;>
    simp only [buildBaseCmd, hl, if_true, if_false, beq_self_eq_true, Bool.false_eq_true] <;>
    norm_num <;>
    first
      | exact ⟨pyStartsWith_append_of_le _ _ _ (by decide) (by decide),
          append_ne_of_data_longer _ _ _ (by decide)⟩
      | exact ⟨by decide, by decide⟩

theorem optTruthy_none : optTruthy none = false := rfl

/-- C2 amended: in `_build_command`'s flag-appending step, the container
flag is appended for *every* table intent (not only the log intent)
whenever a container value was extracted, and it is the last part; the
scope flags remain mutually exclusive for extractor-produced filter sets
(`scopeAll` suppresses the namespace flag), with the all-namespaces flag
present exactly when `scopeAll` is set. -/
theorem build_flag_appending (intent_key text : String) (defn : CommandDefinition)
    (hfind : SIMPLE_COMMAND_DEFINITION.find? (fun d => d.intent_key == intent_key) = some defn) :
    (optTruthy (extract_filters text).container = true →
      (build_command_parts intent_key defn (extract_filters text)).getLast? =
        some ("-c " ++ pyFormatOpt (extract_filters text).container)) ∧
    (optTruthy (extract_filters text).ns = true →
      ("-n " ++ pyFormatOpt (extract_filters text).ns) ∈
        build_command_parts intent_key defn (extract_filters text)) ∧
    ((extract_filters text).all_namespaces = true →
      "-A" ∈ build_command_parts intent_key defn (extract_filters text) ∧
      ∀ p ∈ build_command_parts intent_key defn (extract_filters text),
        pyStartsWith p "-n " = false) ∧
    ((extract_filters text).all_namespaces = false →
      "-A" ∉ build_command_parts intent_key defn (extract_filters text)) := by
  have hik := intent_key_cases intent_key defn hfind
  obtain ⟨hbase1, hbase2⟩ := buildBaseCmd_props intent_key defn
    (canonicalize_target (extract_filters text).label) hik
  set base := buildBaseCmd intent_key defn (canonicalize_target (extract_filters text).label)
    with hbase
  refine ⟨?_, ?_, ?_, ?_⟩
  · intro hc
    simp only [build_command_parts, hc, if_true, ← hbase]
    exact List.getLast?_concat _
  · intro hn
    simp only [build_command_parts, hn, if_true, ← hbase]
    by_cases hA : (extract_filters text).all_namespaces = true <;>
      by_cases hc : optTruthy (extract_filters text).container = true <;>
      simp [hA, hc]
  · intro hA
    have hns : (extract_filters text).ns = none := extract_filters_ns_of_allNs text hA
    have hparts : build_command_parts intent_key defn (extract_filters text) =
        [base] ++ ["-A"] ++
          (if optTruthy (extract_filters text).container = true then
            ["-c " ++ pyFormatOpt (extract_filters text).container] else []) := by
      by_cases hc : optTruthy (extract_filters text).container = true <;>
        simp [build_command_parts, hns, hA, hc, optTruthy_none, ← hbase]
    rw [hparts]
    refine ⟨by simp, ?_⟩
    intro p hp
    by_cases hc : optTruthy (extract_filters text).container = true
    · simp only [hc, if_true, List.mem_append, List.mem_singleton] at hp
      rcases hp with (hp | hp) | hp
      · rw [hp]; exact hbase1
      · rw [hp]; decide
      · rw [hp]; exact pyStartsWith_append_of_le _ _ _ (by decide) (by decide)
    · simp only [hc, Bool.false_eq_true, if_false, List.append_nil, List.mem_append,
        List.mem_singleton] at hp
      rcases hp with hp | hp
      · rw [hp]; exact hbase1
      · rw [hp]; decide
  · intro hA0 hmem
    have hparts : build_command_parts intent_key defn (extract_filters text) =
        [base] ++
          (if optTruthy (extract_filters text).ns = true then
            ["-n " ++ pyFormatOpt (extract_filters text).ns] else []) ++
          (if optTruthy (extract_filters text).container = true then
            ["-c " ++ pyFormatOpt (extract_filters text).container] else []) := by
      by_cases hn : optTruthy (extract_filters text).ns = true <;>
        by_cases hc : optTruthy (extract_filters text).container = true <;>
        simp [build_command_parts, hA0, hn, hc, ← hbase]
    rw [hparts] at hmem
    simp only [List.mem_append, List.mem_singleton] at hmem
    rcases hmem with (hm | hm) | hm
    · exact hbase2 hm.symm
    · by_cases hn : optTruthy (extract_filters text).ns = true
      · rw [if_pos hn, List.mem_singleton] at hm
        exact append_ne_of_data_longer _ _ _ (by decide) hm.symm
      · rw [if_neg hn] at hm
        exact List.not_mem_nil _ hm
    · by_cases hc : optTruthy (extract_filters text).container = true
      · rw [if_pos hc, List.mem_singleton] at hm
        exact append_ne_of_data_longer _ _ _ (by decide) hm.symm
      · rw [if_neg hc] at hm
        exact List.not_mem_nil _ hm

/-- Witness for `build_flag_appending`: instantiated at the `pod_list`
intent and the text `"파드 목록 컨테이너 main"`, whose extraction yields a
container value (the container flag is the last appended part and no
all-namespaces flag appears), and at `"파드 목록 네임스페이스 dev"`, whose
extraction yields a namespace (the namespace flag is appended). -/
theorem build_flag_appending_witness :
    optTruthy (extract_filters "파드 목록 컨테이너 main").container = true ∧
    (build_command_parts "pod_list"
        ⟨"pod_list", "kubectl get pods", ["pod 목록", "파드 목록", "pod 리스트", "파드 리스트"]⟩
        (extract_filters "파드 목록 컨테이너 main")).getLast? =
      some ("-c " ++ pyFormatOpt (extract_filters "파드 목록 컨테이너 main").container) ∧
    "-A" ∉ build_command_parts "pod_list"
        ⟨"pod_list", "kubectl get pods", ["pod 목록", "파드 목록", "pod 리스트", "파드 리스트"]⟩
        (extract_filters "파드 목록 컨테이너 main") ∧
    optTruthy (extract_filters "파드 목록 네임스페이스 dev").ns = true ∧
    ("-n " ++ pyFormatOpt (extract_filters "파드 목록 네임스페이스 dev").ns) ∈
      build_command_parts "pod_list"
        ⟨"pod_list", "kubectl get pods", ["pod 목록", "파드 목록", "pod 리스트", "파드 리스트"]⟩
        (extract_filters "파드 목록 네임스페이스 dev") := by
  have h := build_flag_appending "pod_list" "파드 목록 컨테이너 main"
    ⟨"pod_list", "kubectl get pods", ["pod 목록", "파드 목록", "pod 리스트", "파드 리스트"]⟩ rfl
  have hn := build_flag_appending "pod_list" "파드 목록 네임스페이스 dev"
    ⟨"pod_list", "kubectl get pods", ["pod 목록", "파드 목록", "pod 리스트", "파드 리스트"]⟩ rfl
  exact ⟨by decide, h.1 (by decide), h.2.2.2 (by decide), by decide, hn.2.1 (by decide)⟩

/-- C5: if the first external call reports an incomplete result, then —
when the reason is the output-size limit (`max_output_tokens`) — exactly
one retry is issued with a doubled output-token budget; any other
incompleteness reason is surfaced immediately as the `INCOMPLETE`
sentinel with that reason and no retry; and an incompleteness of the
retried call is surfaced as-is, with no further call. -/
theorem retry_law (invoke : Nat → Except String ApiResponse) (r1 : ApiResponse)
    (h1 : invoke max_output_tokens = .ok r1)
    (hinc : r1.status = some "incomplete") :
    (r1.incomplete_reason.getD "unknown" = "max_output_tokens" →
      (call_responses invoke).2.2 = [max_output_tokens, max_output_tokens * 2]) ∧
    (r1.incomplete_reason.getD "unknown" ≠ "max_output_tokens" →
      call_responses invoke =
        (.sentinel ("kubectl # INCOMPLETE: " ++ r1.incomplete_reason.getD "unknown"),
          r1.usage, [max_output_tokens])) ∧
    (∀ r2 : ApiResponse, r1.incomplete_reason.getD "unknown" = "max_output_tokens" →
      invoke (max_output_tokens * 2) = .ok r2 → r2.status = some "incomplete" →
      call_responses invoke =
        (.sentinel ("kubectl # INCOMPLETE: " ++ r2.incomplete_reason.getD "unknown"),
          r2.usage, [max_output_tokens, max_output_tokens * 2])) := by
  refine ⟨?_, ?_, ?_⟩
  · intro hmot
    unfold call_responses
    rw [h1]
    simp only [hinc, hmot, beq_self_eq_true, if_true]
    cases hr2 : invoke (max_output_tokens * 2) with
    | error e => simp
    | ok r2 =>
      by_cases h2 : (r2.status == some "incomplete") = true <;> simp [h2]
  · intro hne
    unfold call_responses
    rw [h1]
    simp only [hinc, beq_self_eq_true, if_true]
    rw [if_neg (by simpa using hne)]
  · intro r2 hmot h2 hinc2
    unfold call_responses
    rw [h1]
    simp only [hinc, hmot, beq_self_eq_true, if_true]
    rw [h2]
    simp [hinc2]

theorem retry_law_witness :
    (call_responses invTwiceIncomplete).2.2 = [max_output_tokens, max_output_tokens * 2] ∧
    call_responses invTwiceIncomplete =
      (.sentinel ("kubectl # INCOMPLETE: " ++ "max_output_tokens"),
        some ⟨100, 1024, 0⟩, [max_output_tokens, max_output_tokens * 2]) ∧
    call_responses invOtherIncomplete =
      (.sentinel ("kubectl # INCOMPLETE: " ++ "content_filter"), some ⟨7, 8, 1⟩,
        [max_output_tokens]) := by
  refine ⟨(retry_law invTwiceIncomplete respIncompleteFirst rfl rfl).1 (by decide), ?_, ?_⟩
  · exact (retry_law invTwiceIncomplete respIncompleteFirst rfl rfl).2.2
      respIncompleteSecond (by decide) rfl rfl
  · exact (retry_law invOtherIncomplete respIncompleteOther rfl rfl).2.1 (by decide)

theorem finishPayload_shape (r : ApiResponse) (u : Option UsageInfo) :
    (∃ p, finishPayload r u = (.parsed p, u)) ∨
    (∃ tag rest, tag ∈ (["UNABLE_TO_GENERATE", "REFUSED: "] : List String) ∧
      finishPayload r u = (.sentinel ("kubectl # " ++ tag ++ rest), u)) := by
  cases hp : r.output_parsed with
  | some p =>
    left
    exact ⟨p, by simp [finishPayload, extract_structured_payload, hp]⟩
  | none =>
    cases hrf : r.refusal with
    | some msg =>
      right
      exact ⟨"REFUSED: ", msg, by simp,
        by simp [finishPayload, extract_structured_payload, hp, hrf]⟩
    | none =>
      right
      exact ⟨"UNABLE_TO_GENERATE", ": empty response", by simp,
        by simp [finishPayload, extract_structured_payload, hp, hrf]⟩

theorem call_responses_shape (invoke : Nat → Except String ApiResponse) :
    (∃ p u b, call_responses invoke = (.parsed p, u, b)) ∨
    (∃ tag rest u b, tag ∈ (["UNABLE_TO_GENERATE", "REFUSED: ", "INCOMPLETE: ",
        "LLM_CALL_FAILED: "] : List String) ∧
      call_responses invoke = (.sentinel ("kubectl # " ++ tag ++ rest), u, b)) := by
  cases hinv : invoke max_output_tokens with
  | error e =>
    right
    exact ⟨"LLM_CALL_FAILED: ", e, none, [max_output_tokens], by simp,
      by unfold call_responses; rw [hinv]; rfl⟩
  | ok r1 =>
    by_cases hst : (r1.status == some "incomplete") = true
    · by_cases hr : (r1.incomplete_reason.getD "unknown" == "max_output_tokens") = true
      · cases hinv2 : invoke (max_output_tokens * 2) with
        | error e =>
          right
          refine ⟨"LLM_CALL_FAILED: ", e, r1.usage,
            [max_output_tokens, max_output_tokens * 2], by simp, ?_⟩
          unfold call_responses
          rw [hinv, hinv2]
          simp [hst, hr]
        | ok r2 =>
          by_cases hst2 : (r2.status == some "incomplete") = true
          · right
            refine ⟨"INCOMPLETE: ", r2.incomplete_reason.getD "unknown", r2.usage,
              [max_output_tokens, max_output_tokens * 2], by simp, ?_⟩
            unfold call_responses
            rw [hinv, hinv2]
            simp [hst, hr, hst2]
          · rcases finishPayload_shape r2 r2.usage with ⟨p, hfin⟩ | ⟨tag, rest, htag, hfin⟩
            · left
              refine ⟨p, r2.usage, [max_output_tokens, max_output_tokens * 2], ?_⟩
              unfold call_responses
              rw [hinv, hinv2]
              simp [hst, hr, hst2, hfin]
            · right
              refine ⟨tag, rest, r2.usage, [max_output_tokens, max_output_tokens * 2],
                by fin_cases htag <;> simp, ?_⟩
              unfold call_responses
              rw [hinv, hinv2]
              simp [hst, hr, hst2, hfin]
      · right
        refine ⟨"INCOMPLETE: ", r1.incomplete_reason.getD "unknown", r1.usage,
          [max_output_tokens], by simp, ?_⟩
        unfold call_responses
        rw [hinv]
        simp [hst, hr]
    · rcases finishPayload_shape r1 r1.usage with ⟨p, hfin⟩ | ⟨tag, rest, htag, hfin⟩
      · left
        refine ⟨p, r1.usage, [max_output_tokens], ?_⟩
        unfold call_responses
        rw [hinv]
        simp [hst, hfin]
      · right
        refine ⟨tag, rest, r1.usage, [max_output_tokens], by fin_cases htag <;> simp, ?_⟩
        unfold call_responses
        rw [hinv]
        simp [hst, hfin]

/-- C6: the fallback adapter is total over its oracle — every outcome is
either a `GeneratedCommand` whose command starts with `"kubectl "` or a
sentinel string of the form `"kubectl # " ++ tag ++ rest` with a fixed
reason tag; and a parsed result whose (fence-unwrapped, line-selected)
command does not begin with the prefix yields the `UNABLE_TO_GENERATE`
sentinel. -/
theorem fallback_never_raises (invoke : Nat → Except String ApiResponse) (command : String) :
    ((∃ g, cc_process invoke command = .gen g ∧ pyStartsWith g.command "kubectl " = true) ∨
      (∃ tag rest, tag ∈ (["UNABLE_TO_GENERATE", "REFUSED: ", "INCOMPLETE: ",
          "LLM_CALL_FAILED: "] : List String) ∧
        cc_process invoke command = .str ("kubectl # " ++ tag ++ rest))) ∧
    (∀ (p : KubectlStructuredOutput) (u : Option UsageInfo) (b : List Nat),
      call_responses invoke = (.parsed p, u, b) →
      pyStartsWith (extract_kubectl_command p.command) "kubectl " = false →
      cc_process invoke command = .str "kubectl # UNABLE_TO_GENERATE") := by
  constructor
  · rcases call_responses_shape invoke with ⟨p, u, b, heq⟩ | ⟨tag, rest, u, b, htag, heq⟩
    · by_cases hpre : pyStartsWith (extract_kubectl_command p.command) "kubectl " = true
      · left
        exact ⟨⟨extract_kubectl_command p.command, p.reason, p.title, u⟩,
          by simp [cc_process, heq, hpre], hpre⟩
      · right
        refine ⟨"UNABLE_TO_GENERATE", "", by simp, ?_⟩
        simp only [cc_process, heq]
        simp [Bool.not_eq_true] at hpre
        simp [hpre]
    · right
      exact ⟨tag, rest, htag, by simp [cc_process, heq]⟩
  · intro p u b heq hpre
    simp only [cc_process, heq]
    simp [hpre]

theorem fallback_never_raises_witness :
    call_responses invBadCommand = (.parsed outBadCommand, none, [max_output_tokens]) ∧
    pyStartsWith (extract_kubectl_command outBadCommand.command) "kubectl " = false ∧
    cc_process invBadCommand "복잡한 요청" = .str "kubectl # UNABLE_TO_GENERATE" := by
  refine ⟨by decide, by decide, ?_⟩
  exact (fallback_never_raises invBadCommand "복잡한 요청").2 outBadCommand none
    [max_output_tokens] (by decide) (by decide)

theorem execute_command_cases (fb : String → ProcessResult) (raw_command : String) :
    (∃ s, process_command fb (normalize_command raw_command) = .str s ∧
      execute_command fb raw_command = (.appError s, none)) ∨
    (∃ g, process_command fb (normalize_command raw_command) = .gen g ∧
      ((pyStartsWith g.command "kubectl " = false ∧
        execute_command fb raw_command =
          (.appError "kubectl # UNABLE_TO_GENERATE", none)) ∨
       (pyStartsWith g.command "kubectl " = true ∧
        execute_command fb raw_command = (.success g, g.usage)))) := by
  cases hpc : process_command fb (normalize_command raw_command) with
  | str s => exact Or.inl ⟨s, rfl, by simp [execute_command, hpc]⟩
  | gen g =>
    refine Or.inr ⟨g, rfl, ?_⟩
    by_cases hpre : pyStartsWith g.command "kubectl " = true
    · exact Or.inr ⟨hpre, by simp [execute_command, hpc, hpre]⟩
    · rw [Bool.not_eq_true] at hpre
      exact Or.inl ⟨hpre, by simp [execute_command, hpc, hpre]⟩

/-- C10: a sentinel outcome of the fallback adapter is returned as a bare
string, discarding any captured `UsageInfo`; at the service layer,
`_log_usage` receives a `UsageInfo` only when the request returns a valid
`GeneratedCommand`, and exactly the usage carried by it. -/
theorem usage_only_on_success (invoke : Nat → Except String ApiResponse)
    (raw_command : String) :
    (∀ m, (execute_command (cc_process invoke) raw_command).1 = .appError m →
      (execute_command (cc_process invoke) raw_command).2 = none) ∧
    (∀ u, (execute_command (cc_process invoke) raw_command).2 = some u →
      ∃ g, (execute_command (cc_process invoke) raw_command).1 = .success g ∧
        g.usage = some u) ∧
    (∀ (cmd s : String) (u : Option UsageInfo) (b : List Nat),
      call_responses invoke = (.sentinel s, u, b) →
      cc_process invoke cmd = .str s) := by
  refine ⟨?_, ?_, ?_⟩
  · intro m hm
    rcases execute_command_cases (cc_process invoke) raw_command with
      ⟨s, _, he⟩ | ⟨g, _, ⟨_, he⟩ | ⟨_, he⟩⟩ <;> rw [he] at hm ⊢ <;> simp at hm ⊢
  · intro u hu
    rcases execute_command_cases (cc_process invoke) raw_command with
      ⟨s, _, he⟩ | ⟨g, _, ⟨_, he⟩ | ⟨_, he⟩⟩ <;> rw [he] at hu ⊢ <;> simp at hu ⊢
    exact hu
  · intro cmd s u b heq
    simp [cc_process, heq]

theorem usage_only_on_success_witness :
    call_responses invRefusalWithUsage =
      (.sentinel ("kubectl # REFUSED: " ++ "안전하지 않음"), some ⟨10, 5, 2⟩,
        [max_output_tokens]) ∧
    cc_process invRefusalWithUsage "번역 불가 요청" =
      .str ("kubectl # REFUSED: " ++ "안전하지 않음") ∧
    (execute_command (cc_process invRefusalWithUsage) "번역 불가 요청").1 =
      .appError ("kubectl # REFUSED: " ++ "안전하지 않음") ∧
    (execute_command (cc_process invRefusalWithUsage) "번역 불가 요청").2 = none := by
  refine ⟨by decide, ?_, by decide, ?_⟩
  · exact (usage_only_on_success invRefusalWithUsage "번역 불가 요청").2.2
      "번역 불가 요청" ("kubectl # REFUSED: " ++ "안전하지 않음") (some ⟨10, 5, 2⟩)
      [max_output_tokens] (by decide)
  · exact (usage_only_on_success invRefusalWithUsage "번역 불가 요청").1
      ("kubectl # REFUSED: " ++ "안전하지 않음") (by decide)

theorem lstripped_dropWhile (l : List Char) : lstripped (l.dropWhile pyIsSpace) = true := by
  induction l with
  | nil => rfl
  | cons c cs ih =>
    by_cases h : pyIsSpace c = true
    · rw [List.dropWhile_cons_of_pos h]; exact ih
    · rw [List.dropWhile_cons_of_neg (by simp [h])]
      simpa [lstripped] using h

theorem lstripped_rstripWs (l : List Char) (h : lstripped l = true) :
    lstripped (rstripWs l) = true := by
  cases l with
  | nil => rfl
  | cons c cs =>
    simp only [rstripWs]
    cases hr : rstripWs cs with
    | nil =>
      by_cases hs : pyIsSpace c = true
      · simp [hs, lstripped]
      · simp [hs, lstripped]
    | cons x xs => simpa [lstripped] using h

theorem rstripped_rstripWs (l : List Char) : rstrippedB (rstripWs l) = true := by
  induction l with
  | nil => rfl
  | cons c cs ih =>
    simp only [rstripWs]
    cases hr : rstripWs cs with
    | nil =>
      by_cases hs : pyIsSpace c = true
      · simp [hs, rstrippedB]
      · simp [hs, rstrippedB]
    | cons x xs =>
      rw [hr] at ih
      simpa [rstrippedB] using ih

theorem lstripped_pyStrip (l : List Char) : lstripped (pyStrip l) = true :=
  lstripped_rstripWs _ (lstripped_dropWhile l)

theorem rstripped_pyStrip (l : List Char) : rstrippedB (pyStrip l) = true :=
  rstripped_rstripWs _

/-- C8: `CommandExecutor.execute` either completes normally — returning a
`CommandExecutionResult` with both streams stripped of surrounding
whitespace (shown by the strippedness of the results) and the exit code,
a missing code recorded as `-1` via `Option.getD`, any completed exit
code (zero or not) being a normal result — or, on timeout, kills the
subprocess and re-raises, an outcome distinct from every completed
result. -/
theorem executor_contract (command stdout_s stderr_s : String) (rc : Option Int) :
    CommandExecutor.execute command .timesOut = .timeoutRaised true ∧
    (∀ r, CommandExecutor.execute command .timesOut ≠ .ok r) ∧
    (∃ r, CommandExecutor.execute command (.completes stdout_s stderr_s rc) = .ok r ∧
      r.command = command ∧ r.return_code = rc.getD (-1) ∧
      r.stdout = pyStripStr stdout_s ∧ r.stderr = pyStripStr stderr_s ∧
      lstripped r.stdout.data = true ∧ rstrippedB r.stdout.data = true ∧
      lstripped r.stderr.data = true ∧ rstrippedB r.stderr.data = true) := by
  refine ⟨rfl, fun r h => by simp [CommandExecutor.execute] at h, ?_⟩
  exact ⟨_, rfl, rfl, rfl, rfl, rfl,
    lstripped_pyStrip _, rstripped_pyStrip _, lstripped_pyStrip _, rstripped_pyStrip _⟩

/-- C4 counterexample: the normalizer strips only one trailing politeness
suffix per pass, so it is not idempotent — `"파드 목록 좀 보여줘"`
normalizes to `"파드 목록 좀"`, which still ends with the suffix `"좀"`
and re-normalizes to `"파드 목록"`. -/
theorem normalize_not_idempotent :
    normalize_command "파드 목록 좀 보여줘" = "파드 목록 좀" ∧
    normalize_command "파드 목록 좀" = "파드 목록" ∧
    normalize_command (normalize_command "파드 목록 좀 보여줘") ≠
      normalize_command "파드 목록 좀 보여줘" := by
  refine ⟨by decide, by decide, by decide⟩

theorem pyLower_sp : pyLower ' ' = ' ' := by decide

theorem space_not_word {c : Char} (h : pyIsSpace c = true) : isWordChar c = false := by
  have h6 : ((((c = ' ' ∨ c = '\t') ∨ c = '\n') ∨ c = '\x0d') ∨ c = '\x0b') ∨ c = '\x0c' := by
    simpa [pyIsSpace] using h
  rcases h6 with ((((rfl | rfl) | rfl) | rfl) | rfl) | rfl <;> decide

theorem pyLower_idem (c : Char) : pyLower (pyLower c) = pyLower c := by
  unfold pyLower
  by_cases h : (65 ≤ c.toNat && c.toNat ≤ 90) = true
  · rw [if_pos h]
    have hb := Bool.and_eq_true_iff.mp h
    have h1 : 65 ≤ c.toNat := by simpa using hb.1
    have h2 : c.toNat ≤ 90 := by simpa using hb.2
    have hvalid : (c.toNat + 32).isValidChar := Or.inl (by omega)
    have hv : (Char.ofNat (c.toNat + 32)).toNat = c.toNat + 32 := by
      rw [Char.ofNat, dif_pos hvalid]
      simp [Char.ofNatAux, Char.toNat, UInt32.toNat, BitVec.toNat_ofNatLt]
    rw [if_neg (by rw [hv]; simp; omega)]
  · rw [if_neg h, if_neg h]

theorem tryAlts_some_length {alts : List String} {cs rest : List Char}
    (hne : ∀ a ∈ alts, a.data ≠ []) (h : tryAlts alts cs = some rest) :
    rest.length < cs.length := by
  induction alts with
  | nil => simp [tryAlts] at h
  | cons a as ih =>
    simp only [tryAlts] at h
    split at h
    · rename_i hc
      obtain ⟨hp, _⟩ := Bool.and_eq_true_iff.mp hc
      cases h
      have hpre := (List.isPrefixOf_iff_prefix).mp hp
      have hlen := hpre.length_le
      have hado : a.data ≠ [] := hne a (List.mem_cons_self a as)
      have h1 : 1 ≤ a.data.length := by
        cases hd : a.data with
        | nil => exact absurd hd hado
        | cons x xs => simp [hd]
      rw [List.length_drop]
      omega
    · exact ih (fun b hb => hne b (List.mem_cons_of_mem a hb)) h

theorem tryParticle_some_length {cs rest : List Char}
    (h : tryParticle cs = some rest) : rest.length < cs.length :=
  tryAlts_some_length (by decide) h

theorem particleSubFuel_congr :
    ∀ (n m : Nat) (prev : Bool) (l : List Char), l.length ≤ n → l.length ≤ m →
      particleSubFuel n prev l = particleSubFuel m prev l := by
  intro n
  induction n with
  | zero =>
    intro m prev l hn _
    have hl : l = [] := List.eq_nil_of_length_eq_zero (Nat.le_zero.mp hn)
    subst hl
    cases m <;> cases prev <;> rfl
  | succ n ih =>
    intro m prev l hn hm
    cases l with
    | nil => cases m <;> cases prev <;> rfl
    | cons c cs =>
      cases m with
      | zero => simp at hm
      | succ m' =>
        cases prev with
        | true =>
          simp only [particleSubFuel]
          rw [ih m' (isWordChar c) cs (by simp at hn; omega) (by simp at hm; omega)]
        | false =>
          simp only [particleSubFuel]
          cases ht : tryParticle (c :: cs) with
          | none =>
            show c :: particleSubFuel n (isWordChar c) cs =
              c :: particleSubFuel m' (isWordChar c) cs
            rw [ih m' (isWordChar c) cs (by simp at hn; omega) (by simp at hm; omega)]
          | some rest =>
            have hl := tryParticle_some_length ht
            show particleSubFuel n true rest = particleSubFuel m' true rest
            exact ih m' true rest (by simp at hn hl; omega) (by simp at hm hl; omega)

theorem particleSubAux_nil (prev : Bool) : particleSubAux prev [] = [] := rfl

theorem particleSubAux_cons_true (c : Char) (cs : List Char) :
    particleSubAux true (c :: cs) = c :: particleSubAux (isWordChar c) cs := rfl

theorem particleSubAux_cons_false_none {c : Char} {cs : List Char}
    (h : tryParticle (c :: cs) = none) :
    particleSubAux false (c :: cs) = c :: particleSubAux (isWordChar c) cs := by
  show particleSubFuel (c :: cs).length false (c :: cs) = _
  rw [List.length_cons]
  simp only [particleSubFuel, h]
  rfl

theorem particleSubAux_cons_false_some {c : Char} {cs rest : List Char}
    (h : tryParticle (c :: cs) = some rest) :
    particleSubAux false (c :: cs) = particleSubAux true rest := by
  show particleSubFuel (c :: cs).length false (c :: cs) = particleSubFuel rest.length true rest
  rw [List.length_cons]
  simp only [particleSubFuel, h]
  have hlt := tryParticle_some_length h
  exact particleSubFuel_congr cs.length rest.length true rest
    (by simp at hlt; omega) le_rfl

theorem drop_takeWhile_length (p : Char → Bool) :
    ∀ l : List Char, l.drop (l.takeWhile p).length = l.dropWhile p := by
  intro l
  induction l with
  | nil => rfl
  | cons c cs ih =>
    by_cases h : p c = true
    · rw [List.takeWhile_cons_of_pos h, List.dropWhile_cons_of_pos h, List.length_cons,
        List.drop_succ_cons]
      exact ih
    · rw [List.takeWhile_cons_of_neg (by simp [h]), List.dropWhile_cons_of_neg (by simp [h])]
      rfl

theorem run_spec (w : List Char) :
    ∀ l : List Char, w ≠ [] → w.all isWordChar = true →
      (((w.isPrefixOf l && boundaryAfter (l.drop w.length)) = true) ↔
        w = l.takeWhile isWordChar) := by
  induction w with
  | nil => intro l hne _; exact absurd rfl hne
  | cons x w' ih =>
    intro l _ hw
    have hxw : isWordChar x = true := by
      simp only [List.all_cons, Bool.and_eq_true] at hw
      exact hw.1
    have hw' : w'.all isWordChar = true := by
      simp only [List.all_cons, Bool.and_eq_true] at hw
      exact hw.2
    cases l with
    | nil =>
      constructor
      · intro h
        simp [List.isPrefixOf] at h
      · intro h
        simp [List.takeWhile] at h
    | cons c l' =>
      by_cases hxc : (x == c) = true
      · have hx : x = c := beq_iff_eq.mp hxc
        subst hx
        rw [List.takeWhile_cons_of_pos hxw]
        cases hw'e : w' with
        | nil =>
          simp only [List.isPrefixOf, hxc, Bool.true_and, List.isPrefixOf_nil_left,
            List.length_cons, List.length_nil, Nat.zero_add, List.drop_succ_cons,
            List.drop_zero, Bool.true_and]
          constructor
          · intro h
            cases l' with
            | nil => rfl
            | cons d l'' =>
              simp only [boundaryAfter] at h
              rw [List.takeWhile_cons_of_neg (by simp at h; simp [h])]
          · intro h
            cases l' with
            | nil => rfl
            | cons d l'' =>
              by_cases hd : isWordChar d = true
              · rw [List.takeWhile_cons_of_pos hd] at h
                simp at h
              · rw [List.takeWhile_cons_of_neg (by simp [hd])] at h
                simp only [boundaryAfter]
                simp [hd]
        | cons y w'' =>
          rw [← hw'e]
          have hne' : w' ≠ [] := by rw [hw'e]; simp
          have := ih l' hne' hw'
          constructor
          · intro h
            simp only [List.isPrefixOf, hxc, Bool.true_and, List.length_cons,
              List.drop_succ_cons] at h
            rw [(this).mp h]
          · intro h
            have heq : w' = l'.takeWhile isWordChar := by
              have := congrArg List.tail h
              simpa using this
            simp only [List.isPrefixOf, hxc, Bool.true_and, List.length_cons,
              List.drop_succ_cons]
            exact (this).mpr heq
      · constructor
        · intro h
          simp only [List.isPrefixOf, hxc, Bool.false_and, Bool.false_eq_true] at h
        · intro h
          by_cases hc : isWordChar c = true
          · rw [List.takeWhile_cons_of_pos hc] at h
            have : x = c := by
              have := congrArg (fun t => t.headD ' ') h
              simpa using this
            exact absurd (beq_iff_eq.mpr this) (by simp [hxc])
          · rw [List.takeWhile_cons_of_neg (by simp [hc])] at h
            simp at h

theorem tryAlts_run (alts : List String) (l : List Char)
    (halts : ∀ a ∈ alts, a.data ≠ [] ∧ a.data.all isWordChar = true) :
    tryAlts alts l =
      if alts.any (fun a => a.data == l.takeWhile isWordChar) then
        some (l.dropWhile isWordChar)
      else none := by
  induction alts with
  | nil => simp [tryAlts]
  | cons a as ih =>
    obtain ⟨hane, haw⟩ := halts a (List.mem_cons_self a as)
    by_cases hmatch : (a.data.isPrefixOf l && boundaryAfter (l.drop a.data.length)) = true
    · have hrun : a.data = l.takeWhile isWordChar := (run_spec a.data l hane haw).mp hmatch
      simp only [tryAlts, hmatch, if_true]
      rw [List.any_cons]
      rw [if_pos (by simp [hrun])]
      have : a.data.length = (l.takeWhile isWordChar).length := by rw [hrun]
      rw [this, drop_takeWhile_length]
    · have hrun : (a.data == l.takeWhile isWordChar) = false := by
        by_contra hc
        rw [Bool.not_eq_false, beq_iff_eq] at hc
        exact hmatch ((run_spec a.data l hane haw).mpr hc)
      simp only [tryAlts, hmatch, if_false]
      rw [ih (fun b hb => halts b (List.mem_cons_of_mem a hb))]
      simp [hrun]

theorem tryParticle_run (l : List Char) :
    tryParticle l =
      if PARTICLES.any (fun a => a.data == l.takeWhile isWordChar) then
        some (l.dropWhile isWordChar)
      else none :=
  tryAlts_run PARTICLES l (by decide)

theorem tryParticle_none_of_nonword {c : Char} (cs : List Char)
    (h : isWordChar c = false) : tryParticle (c :: cs) = none := by
  rw [tryParticle_run]
  rw [List.takeWhile_cons_of_neg (by simp [h])]
  rw [if_neg (by decide)]

theorem takeWhile_particleSubAux_true :
    ∀ l : List Char, (particleSubAux true l).takeWhile isWordChar = l.takeWhile isWordChar := by
  intro l
  induction l with
  | nil => rfl
  | cons c cs ih =>
    rw [particleSubAux_cons_true]
    by_cases hc : isWordChar c = true
    · rw [List.takeWhile_cons_of_pos hc, List.takeWhile_cons_of_pos hc, hc, ih]
    · rw [List.takeWhile_cons_of_neg (by simp [hc]), List.takeWhile_cons_of_neg (by simp [hc])]

theorem hasParticleMatch_mono {l : List Char} (b : Bool)
    (h : hasParticleMatch false l = false) : hasParticleMatch b l = false := by
  cases l with
  | nil => rfl
  | cons c cs =>
    simp only [hasParticleMatch, Bool.not_false, Bool.true_and, Bool.or_eq_false_iff] at h
    simp [hasParticleMatch, h.1, h.2]

theorem dropWhile_head_not (p : Char → Bool) :
    ∀ (l : List Char) (e : Char) (es : List Char), l.dropWhile p = e :: es → p e = false := by
  intro l
  induction l with
  | nil => intro e es h; simp at h
  | cons c cs ih =>
    intro e es h
    by_cases hc : p c = true
    · rw [List.dropWhile_cons_of_pos hc] at h
      exact ih e es h
    · rw [List.dropWhile_cons_of_neg (by simp [hc])] at h
      cases h
      simp [hc]

theorem hasParticleMatch_particleSubAux :
    ∀ (n : Nat) (l : List Char) (prev : Bool), l.length ≤ n →
      hasParticleMatch prev (particleSubAux prev l) = false := by
  intro n
  induction n with
  | zero =>
    intro l prev h
    have hl : l = [] := List.eq_nil_of_length_eq_zero (Nat.le_zero.mp h)
    subst hl
    rfl
  | succ n ih =>
    intro l prev hl
    cases l with
    | nil => cases prev <;> rfl
    | cons c cs =>
      cases prev with
      | true =>
        rw [particleSubAux_cons_true]
        simp only [hasParticleMatch, Bool.not_true, Bool.false_and, Bool.false_or]
        exact ih cs (isWordChar c) (by simp at hl; omega)
      | false =>
        cases ht : tryParticle (c :: cs) with
        | none =>
          rw [particleSubAux_cons_false_none ht]
          simp only [hasParticleMatch, Bool.not_false, Bool.true_and, Bool.or_eq_false_iff]
          refine ⟨?_, ih cs (isWordChar c) (by simp at hl; omega)⟩
          by_cases hc : isWordChar c = true
          · rw [tryParticle_run] at ht ⊢
            rw [List.takeWhile_cons_of_pos hc] at ht ⊢
            rw [hc, takeWhile_particleSubAux_true]
            cases hcond : (PARTICLES.any fun a => a.data == c :: List.takeWhile isWordChar cs) with
            | false => simp [hcond]
            | true => rw [hcond] at ht; simp at ht
          · rw [tryParticle_none_of_nonword _ (by simpa using hc)]
            rfl
        | some rest =>
          rw [particleSubAux_cons_false_some ht]
          have hrest : rest = List.dropWhile isWordChar (c :: cs) := by
            rw [tryParticle_run] at ht
            split at ht
            · exact (Option.some.inj ht).symm
            · simp at ht
          have hlen := tryParticle_some_length ht
          cases hre : rest with
          | nil => rfl
          | cons e es =>
            have he : isWordChar e = false := by
              refine dropWhile_head_not isWordChar (c :: cs) e es ?_
              rw [← hrest, hre]
            rw [particleSubAux_cons_true]
            simp only [hasParticleMatch, Bool.not_false, Bool.true_and, Bool.or_eq_false_iff]
            constructor
            · rw [tryParticle_none_of_nonword _ he]
              rfl
            · rw [he]
              refine ih es false ?_
              rw [hre] at hlen
              simp at hlen hl
              omega

theorem rstripWs_eq_nil_iff : ∀ l : List Char, rstripWs l = [] ↔ l.all pyIsSpace = true := by
  intro l
  induction l with
  | nil => simp [rstripWs]
  | cons c cs ih =>
    simp only [rstripWs, List.all_cons, Bool.and_eq_true]
    cases hr : rstripWs cs with
    | nil =>
      by_cases hc : pyIsSpace c = true
      · simp [hc, ← ih, hr]
      · simp [hc]
    | cons x xs =>
      constructor
      · intro h
        exact absurd h (by simp)
      · intro ⟨_, hall⟩
        have hnil : rstripWs cs = [] := ih.mpr hall
        rw [hr] at hnil
        simp at hnil

theorem takeWhile_word_of_all_space {l : List Char} (h : l.all pyIsSpace = true) :
    l.takeWhile isWordChar = [] := by
  cases l with
  | nil => rfl
  | cons c cs =>
    simp only [List.all_cons, Bool.and_eq_true] at h
    rw [List.takeWhile_cons_of_neg (by simp [space_not_word h.1])]

theorem collapseWs_head (c : Char) (cs : List Char) (h : pyIsSpace c = false) :
    ∃ tl, collapseWs (c :: cs) = c :: tl := by
  cases cs with
  | nil => exact ⟨[], by simp [collapseWs, h]⟩
  | cons d cs' => exact ⟨collapseWs (d :: cs'), by simp [collapseWs, h]⟩

theorem collapseWs_cons2_pos {c d : Char} (cs' : List Char)
    (h : (pyIsSpace c && pyIsSpace d) = true) :
    collapseWs (c :: d :: cs') = collapseWs (d :: cs') := by
  simp [collapseWs, h]

theorem collapseWs_cons2_neg {c d : Char} (cs' : List Char)
    (h : (pyIsSpace c && pyIsSpace d) = false) :
    collapseWs (c :: d :: cs') =
      (if pyIsSpace c then ' ' else c) :: collapseWs (d :: cs') := by
  simp only [collapseWs, h, Bool.false_eq_true, if_false]

theorem takeWhile_collapseWs :
    ∀ l : List Char, (collapseWs l).takeWhile isWordChar = l.takeWhile isWordChar := by
  intro l
  induction l with
  | nil => rfl
  | cons c cs ih =>
    cases cs with
    | nil =>
      show ([if pyIsSpace c then ' ' else c].takeWhile isWordChar) = _
      by_cases hc : pyIsSpace c = true
      · rw [if_pos hc]
        rw [List.takeWhile_cons_of_neg (p := isWordChar) (by decide),
          List.takeWhile_cons_of_neg (by simp [space_not_word hc])]
      · rw [if_neg hc]
    | cons d cs' =>
      by_cases hcd : (pyIsSpace c && pyIsSpace d) = true
      · rw [collapseWs_cons2_pos cs' hcd, ih]
        obtain ⟨hc, hd⟩ := Bool.and_eq_true_iff.mp hcd
        rw [List.takeWhile_cons_of_neg (by simp [space_not_word hd]),
          List.takeWhile_cons_of_neg (by simp [space_not_word hc])]
      · rw [collapseWs_cons2_neg cs' (by simpa using hcd)]
        by_cases hc : pyIsSpace c = true
        · rw [if_pos hc]
          rw [List.takeWhile_cons_of_neg (p := isWordChar) (by decide),
            List.takeWhile_cons_of_neg (by simp [space_not_word hc])]
        · rw [if_neg hc]
          by_cases hw : isWordChar c = true
          · rw [List.takeWhile_cons_of_pos hw, List.takeWhile_cons_of_pos hw, ih]
          · rw [List.takeWhile_cons_of_neg (by simp [hw]),
              List.takeWhile_cons_of_neg (by simp [hw])]

theorem hasParticleMatch_cons (b : Bool) (c : Char) (cs : List Char) :
    hasParticleMatch b (c :: cs) =
      ((!b && (tryParticle (c :: cs)).isSome) || hasParticleMatch (isWordChar c) cs) := rfl

theorem hasParticleMatch_cons_false {b : Bool} {c : Char} {cs : List Char}
    (h1 : (!b && (tryParticle (c :: cs)).isSome) = false)
    (h2 : hasParticleMatch (isWordChar c) cs = false) :
    hasParticleMatch b (c :: cs) = false := by
  rw [hasParticleMatch_cons, h1, h2]
  rfl

theorem hasParticleMatch_cons_elim {b : Bool} {c : Char} {cs : List Char}
    (h : hasParticleMatch b (c :: cs) = false) :
    (!b && (tryParticle (c :: cs)).isSome) = false ∧
      hasParticleMatch (isWordChar c) cs = false := by
  rw [hasParticleMatch_cons] at h
  exact Bool.or_eq_false_iff.mp h

theorem hasParticleMatch_collapseWs :
    ∀ (l : List Char) (b : Bool), hasParticleMatch b l = false →
      hasParticleMatch b (collapseWs l) = false := by
  intro l
  induction l with
  | nil => intro b h; exact h
  | cons c cs ih =>
    intro b h
    obtain ⟨hhead, htail⟩ := hasParticleMatch_cons_elim h
    cases cs with
    | nil =>
      show hasParticleMatch b [if pyIsSpace c then ' ' else c] = false
      by_cases hc : pyIsSpace c = true
      · rw [if_pos hc]
        refine hasParticleMatch_cons_false ?_ rfl
        rw [tryParticle_none_of_nonword [] (by decide : isWordChar ' ' = false)]
        simp
      · rw [if_neg hc]
        exact hasParticleMatch_cons_false hhead rfl
    | cons d cs' =>
      by_cases hcd : (pyIsSpace c && pyIsSpace d) = true
      · rw [collapseWs_cons2_pos cs' hcd]
        have hc := (Bool.and_eq_true_iff.mp hcd).1
        rw [space_not_word hc] at htail
        exact hasParticleMatch_mono b (ih false htail)
      · rw [collapseWs_cons2_neg cs' (by simpa using hcd)]
        have hw : isWordChar (if pyIsSpace c then ' ' else c) = isWordChar c := by
          by_cases hc : pyIsSpace c = true
          · rw [if_pos hc, space_not_word hc]
            decide
          · rw [if_neg hc]
        refine hasParticleMatch_cons_false ?_ (by rw [hw]; exact ih (isWordChar c) htail)
        cases b with
        | true => rfl
        | false =>
          simp only [Bool.not_false, Bool.true_and] at hhead ⊢
          by_cases hc : pyIsSpace c = true
          · rw [if_pos hc, tryParticle_none_of_nonword _ (by decide : isWordChar ' ' = false)]
            rfl
          · rw [if_neg hc]
            by_cases hword : isWordChar c = true
            · rw [tryParticle_run] at hhead ⊢
              rw [List.takeWhile_cons_of_pos hword] at hhead ⊢
              rw [takeWhile_collapseWs]
              cases hcond : (PARTICLES.any fun a =>
                  a.data == c :: List.takeWhile isWordChar (d :: cs')) with
              | false => simp [hcond]
              | true => rw [hcond] at hhead; simp at hhead
            · rw [tryParticle_none_of_nonword _ (by simpa using hword)]
              rfl

theorem takeWhile_rstripWs :
    ∀ l : List Char, (rstripWs l).takeWhile isWordChar = l.takeWhile isWordChar := by
  intro l
  induction l with
  | nil => rfl
  | cons c cs ih =>
    simp only [rstripWs]
    cases hr : rstripWs cs with
    | nil =>
      have hall : cs.all pyIsSpace = true := (rstripWs_eq_nil_iff cs).mp hr
      by_cases hc : pyIsSpace c = true
      · rw [if_pos hc]
        rw [List.takeWhile_cons_of_neg (by simp [space_not_word hc])]
        rfl
      · rw [if_neg hc]
        by_cases hw : isWordChar c = true
        · rw [List.takeWhile_cons_of_pos hw, List.takeWhile_cons_of_pos hw,
            takeWhile_word_of_all_space hall]
          rfl
        · rw [List.takeWhile_cons_of_neg (by simp [hw]),
            List.takeWhile_cons_of_neg (by simp [hw])]
    | cons x xs =>
      rw [hr] at ih
      by_cases hw : isWordChar c = true
      · rw [List.takeWhile_cons_of_pos hw, List.takeWhile_cons_of_pos hw, ih]
      · rw [List.takeWhile_cons_of_neg (by simp [hw]),
          List.takeWhile_cons_of_neg (by simp [hw])]

theorem hasParticleMatch_dropWhile :
    ∀ l : List Char, hasParticleMatch false l = false →
      hasParticleMatch false (l.dropWhile pyIsSpace) = false := by
  intro l
  induction l with
  | nil => intro h; exact h
  | cons c cs ih =>
    intro h
    obtain ⟨hhead, htail⟩ := hasParticleMatch_cons_elim h
    by_cases hc : pyIsSpace c = true
    · rw [List.dropWhile_cons_of_pos hc]
      rw [space_not_word hc] at htail
      exact ih htail
    · rw [List.dropWhile_cons_of_neg (by simp [hc])]
      exact hasParticleMatch_cons_false hhead htail

theorem hasParticleMatch_rstripWs :
    ∀ (l : List Char) (b : Bool), hasParticleMatch b l = false →
      hasParticleMatch b (rstripWs l) = false := by
  intro l
  induction l with
  | nil => intro b h; exact h
  | cons c cs ih =>
    intro b h
    obtain ⟨hhead, htail⟩ := hasParticleMatch_cons_elim h
    simp only [rstripWs]
    cases hr : rstripWs cs with
    | nil =>
      have hall : cs.all pyIsSpace = true := (rstripWs_eq_nil_iff cs).mp hr
      by_cases hc : pyIsSpace c = true
      · rw [if_pos hc]
        rfl
      · rw [if_neg hc]
        refine hasParticleMatch_cons_false ?_ rfl
        cases b with
        | true => rfl
        | false =>
          simp only [Bool.not_false, Bool.true_and] at hhead ⊢
          by_cases hword : isWordChar c = true
          · rw [tryParticle_run] at hhead ⊢
            rw [List.takeWhile_cons_of_pos hword] at hhead ⊢
            rw [takeWhile_word_of_all_space hall] at hhead
            rw [show List.takeWhile isWordChar ([] : List Char) = [] from rfl]
            cases hcond : (PARTICLES.any fun a => a.data == [c]) with
            | false => simp [hcond]
            | true => rw [hcond] at hhead; simp at hhead
          · rw [tryParticle_none_of_nonword _ (by simpa using hword)]
            rfl
    | cons x xs =>
      rw [hr] at ih
      refine hasParticleMatch_cons_false ?_ (ih (isWordChar c) htail)
      cases b with
      | true => rfl
      | false =>
        simp only [Bool.not_false, Bool.true_and] at hhead ⊢
        by_cases hword : isWordChar c = true
        · rw [tryParticle_run] at hhead ⊢
          rw [List.takeWhile_cons_of_pos hword] at hhead ⊢
          have hj := takeWhile_rstripWs cs
          rw [hr] at hj
          rw [hj]
          cases hcond : (PARTICLES.any fun a =>
              a.data == c :: List.takeWhile isWordChar cs) with
          | false => simp [hcond]
          | true => rw [hcond] at hhead; simp at hhead
        · rw [tryParticle_none_of_nonword _ (by simpa using hword)]
          rfl

theorem particleSubAux_eq_self :
    ∀ (n : Nat) (l : List Char) (prev : Bool), l.length ≤ n →
      hasParticleMatch prev l = false → particleSubAux prev l = l := by
  intro n
  induction n with
  | zero =>
    intro l prev hn _
    have hl : l = [] := List.eq_nil_of_length_eq_zero (Nat.le_zero.mp hn)
    subst hl
    rfl
  | succ n ih =>
    intro l prev hn h
    cases l with
    | nil => cases prev <;> rfl
    | cons c cs =>
      obtain ⟨hhead, htail⟩ := hasParticleMatch_cons_elim h
      cases prev with
      | true =>
        rw [particleSubAux_cons_true, ih cs (isWordChar c) (by simp at hn; omega) htail]
      | false =>
        cases ht : tryParticle (c :: cs) with
        | some rest =>
          rw [ht] at hhead
          simp at hhead
        | none =>
          rw [particleSubAux_cons_false_none ht,
            ih cs (isWordChar c) (by simp at hn; omega) htail]

theorem dropWhile_eq_self_of_lstripped {l : List Char} (h : lstripped l = true) :
    l.dropWhile pyIsSpace = l := by
  cases l with
  | nil => rfl
  | cons c cs =>
    simp only [lstripped] at h
    rw [List.dropWhile_cons_of_neg (by simp at h; simp [h])]

theorem rstripWs_eq_self_of_rstripped :
    ∀ l : List Char, rstrippedB l = true → rstripWs l = l := by
  intro l
  induction l with
  | nil => intro _; rfl
  | cons c cs ih =>
    intro h
    cases cs with
    | nil =>
      simp only [rstrippedB] at h
      simp only [rstripWs]
      rw [if_neg (by simp at h; simp [h])]
    | cons d ds =>
      have htail : rstrippedB (d :: ds) = true := h
      rw [show rstripWs (c :: d :: ds) =
        (match rstripWs (d :: ds) with
          | [] => if pyIsSpace c then [] else [c]
          | r => c :: r) from rfl]
      rw [ih htail]

theorem pyStrip_eq_self {l : List Char} (h1 : lstripped l = true)
    (h2 : rstrippedB l = true) : pyStrip l = l := by
  unfold pyStrip lstripWs
  rw [dropWhile_eq_self_of_lstripped h1, rstripWs_eq_self_of_rstripped l h2]

theorem map_pyLower_eq_self {l : List Char} (h : lowerFixed l = true) :
    l.map pyLower = l := by
  induction l with
  | nil => rfl
  | cons c cs ih =>
    simp only [lowerFixed, List.all_cons, Bool.and_eq_true, beq_iff_eq] at h
    simp only [List.map_cons, h.1]
    rw [ih h.2]

theorem collapsedB_cons2 (c d : Char) (cs : List Char) :
    collapsedB (c :: d :: cs) =
      ((!pyIsSpace c || c == ' ') && !(pyIsSpace c && pyIsSpace d) && collapsedB (d :: cs)) := rfl

theorem collapsedB_head : ∀ {c : Char} {cs : List Char}, collapsedB (c :: cs) = true →
    (!pyIsSpace c || c == ' ') = true := by
  intro c cs h
  cases cs with
  | nil => exact h
  | cons d ds =>
    rw [collapsedB_cons2] at h
    exact (Bool.and_eq_true_iff.mp (Bool.and_eq_true_iff.mp h).1).1

theorem collapsedB_tail : ∀ {c : Char} {cs : List Char}, collapsedB (c :: cs) = true →
    collapsedB cs = true := by
  intro c cs h
  cases cs with
  | nil => rfl
  | cons d ds =>
    rw [collapsedB_cons2] at h
    exact (Bool.and_eq_true_iff.mp h).2

theorem ite_space_char {c : Char} (h : (!pyIsSpace c || c == ' ') = true) :
    (if pyIsSpace c then ' ' else c) = c := by
  by_cases hc : pyIsSpace c = true
  · rw [if_pos hc]
    rcases Bool.or_eq_true_iff.mp h with h1 | h1
    · rw [hc] at h1; simp at h1
    · exact (beq_iff_eq.mp h1).symm
  · rw [if_neg hc]

theorem collapseWs_eq_self : ∀ l : List Char, collapsedB l = true → collapseWs l = l := by
  intro l
  induction l with
  | nil => intro _; rfl
  | cons c cs ih =>
    intro h
    cases cs with
    | nil =>
      show [if pyIsSpace c then ' ' else c] = [c]
      rw [ite_space_char (collapsedB_head h)]
    | cons d ds =>
      rw [collapsedB_cons2] at h
      obtain ⟨⟨hchar, hpair⟩, htail⟩ :=
        And.imp Bool.and_eq_true_iff.mp id (Bool.and_eq_true_iff.mp h)
      rw [collapseWs_cons2_neg ds (by
        rcases (by simpa using hpair : pyIsSpace c = false ∨ pyIsSpace d = false) with h1 | h1 <;>
          simp [h1])]
      rw [ite_space_char hchar, ih htail]

theorem collapsedB_singleton {c : Char} (h : (!pyIsSpace c || c == ' ') = true) :
    collapsedB [c] = true := h

theorem collapsedB_collapseWs : ∀ l : List Char, collapsedB (collapseWs l) = true := by
  intro l
  induction l with
  | nil => rfl
  | cons c cs ih =>
    cases cs with
    | nil =>
      show collapsedB [if pyIsSpace c then ' ' else c] = true
      by_cases hc : pyIsSpace c = true
      · rw [if_pos hc]; decide
      · rw [if_neg hc]
        exact collapsedB_singleton (by simp [hc])
    | cons d ds =>
      by_cases hcd : (pyIsSpace c && pyIsSpace d) = true
      · rw [collapseWs_cons2_pos ds hcd]
        exact ih
      · rw [collapseWs_cons2_neg ds (by simpa using hcd)]
        have hd : pyIsSpace c = true → pyIsSpace d = false := by
          intro hc
          by_contra hdc
          rw [Bool.not_eq_false] at hdc
          exact hcd (by rw [hc, hdc]; rfl)
        have hchar : (!pyIsSpace (if pyIsSpace c then ' ' else c)
            || (if pyIsSpace c then ' ' else c) == ' ') = true := by
          by_cases hc : pyIsSpace c = true
          · rw [if_pos hc]; decide
          · rw [if_neg hc]; simp [hc]
        cases hout : collapseWs (d :: ds) with
        | nil => exact collapsedB_singleton hchar
        | cons y ys =>
          rw [collapsedB_cons2]
          rw [hout] at ih
          refine (Bool.and_eq_true_iff.mpr ⟨Bool.and_eq_true_iff.mpr ⟨hchar, ?_⟩, ih⟩)
          by_cases hc : pyIsSpace c = true
          · obtain ⟨tl, htl⟩ := collapseWs_head d ds (hd hc)
            rw [htl] at hout
            cases hout
            rw [if_pos hc]
            simp [hd hc]
          · rw [if_neg hc]
            simp [hc]

theorem collapsedB_dropWhile :
    ∀ l : List Char, collapsedB l = true → collapsedB (l.dropWhile pyIsSpace) = true := by
  intro l
  induction l with
  | nil => intro _; rfl
  | cons c cs ih =>
    intro h
    by_cases hc : pyIsSpace c = true
    · rw [List.dropWhile_cons_of_pos hc]
      exact ih (collapsedB_tail h)
    · rw [List.dropWhile_cons_of_neg (by simp [hc])]
      exact h

theorem rstripWs_head : ∀ {d : Char} {ds : List Char} {x : Char} {xs : List Char},
    rstripWs (d :: ds) = x :: xs → x = d := by
  intro d ds x xs h
  simp only [rstripWs] at h
  cases hr : rstripWs ds with
  | nil =>
    rw [hr] at h
    by_cases hd : pyIsSpace d = true
    · rw [if_pos hd] at h
      cases h
    · rw [if_neg hd] at h
      cases h
      rfl
  | cons y ys =>
    rw [hr] at h
    cases h
    rfl

theorem collapsedB_rstripWs :
    ∀ l : List Char, collapsedB l = true → collapsedB (rstripWs l) = true := by
  intro l
  induction l with
  | nil => intro _; rfl
  | cons c cs ih =>
    intro h
    simp only [rstripWs]
    cases hr : rstripWs cs with
    | nil =>
      by_cases hc : pyIsSpace c = true
      · rw [if_pos hc]; rfl
      · rw [if_neg hc]
        exact collapsedB_singleton (collapsedB_head h)
    | cons x xs =>
      cases cs with
      | nil => simp [rstripWs] at hr
      | cons d ds =>
        have hxd : x = d := rstripWs_head hr
        subst hxd
        rw [collapsedB_cons2] at h ⊢
        obtain ⟨⟨hchar, hpair⟩, htail⟩ :=
          And.imp Bool.and_eq_true_iff.mp id (Bool.and_eq_true_iff.mp h)
        have hcB : collapsedB (x :: xs) = true := by
          have := ih htail
          rw [hr] at this
          exact this
        exact Bool.and_eq_true_iff.mpr ⟨Bool.and_eq_true_iff.mpr ⟨hchar, hpair⟩, hcB⟩

theorem mem_endingsSub : ∀ {l : List Char} {c : Char}, c ∈ endingsSub l → c ∈ l := by
  intro l
  induction l with
  | nil => intro c h; exact h
  | cons x xs ih =>
    intro c h
    simp only [endingsSub] at h
    by_cases he : endingMatchAt (x :: xs) = true
    · rw [if_pos he] at h
      simp at h
    · rw [if_neg he] at h
      rcases List.mem_cons.mp h with h1 | h1
      · exact h1 ▸ List.mem_cons_self x xs
      · exact List.mem_cons_of_mem x (ih h1)

theorem mem_particleSubFuel :
    ∀ (n : Nat) (prev : Bool) (l : List Char) (c : Char),
      c ∈ particleSubFuel n prev l → c ∈ l := by
  intro n
  induction n with
  | zero => intro prev l c h; exact h
  | succ n ih =>
    intro prev l c h
    cases l with
    | nil => cases prev <;> simp [particleSubFuel] at h
    | cons x xs =>
      cases prev with
      | true =>
        rcases List.mem_cons.mp h with h1 | h1
        · exact h1 ▸ List.mem_cons_self x xs
        · exact List.mem_cons_of_mem x (ih (isWordChar x) xs c h1)
      | false =>
        cases ht : tryParticle (x :: xs) with
        | some rest =>
          have hstep : particleSubFuel (n + 1) false (x :: xs) = particleSubFuel n true rest := by
            simp [particleSubFuel, ht]
          rw [hstep] at h
          have hrest : rest = List.dropWhile isWordChar (x :: xs) := by
            rw [tryParticle_run] at ht
            split at ht
            · exact (Option.some.inj ht).symm
            · simp at ht
          have := ih true rest c h
          rw [hrest] at this
          exact (List.dropWhile_sublist isWordChar).subset this
        | none =>
          have hstep : particleSubFuel (n + 1) false (x :: xs) =
              x :: particleSubFuel n (isWordChar x) xs := by
            simp [particleSubFuel, ht]
          rw [hstep] at h
          rcases List.mem_cons.mp h with h1 | h1
          · exact h1 ▸ List.mem_cons_self x xs
          · exact List.mem_cons_of_mem x (ih (isWordChar x) xs c h1)

theorem mem_collapseWs : ∀ (l : List Char) (c : Char),
    c ∈ collapseWs l → c ∈ l ∨ c = ' ' := by
  intro l
  induction l with
  | nil => intro c h; exact absurd h (by simp [collapseWs])
  | cons x xs ih =>
    intro c h
    cases xs with
    | nil =>
      rcases List.mem_cons.mp h with h1 | h1
      · by_cases hx : pyIsSpace x = true
        · rw [if_pos hx] at h1
          exact Or.inr h1
        · rw [if_neg hx] at h1
          exact Or.inl (h1 ▸ List.mem_cons_self x [])
      · simp at h1
    | cons d ds =>
      by_cases hxd : (pyIsSpace x && pyIsSpace d) = true
      · rw [collapseWs_cons2_pos ds hxd] at h
        rcases ih c h with h1 | h1
        · exact Or.inl (List.mem_cons_of_mem x h1)
        · exact Or.inr h1
      · rw [collapseWs_cons2_neg ds (by simpa using hxd)] at h
        rcases List.mem_cons.mp h with h1 | h1
        · by_cases hx : pyIsSpace x = true
          · rw [if_pos hx] at h1
            exact Or.inr h1
          · rw [if_neg hx] at h1
            exact Or.inl (h1 ▸ List.mem_cons_self x (d :: ds))
        · rcases ih c h1 with h2 | h2
          · exact Or.inl (List.mem_cons_of_mem x h2)
          · exact Or.inr h2

theorem mem_rstripWs : ∀ {l : List Char} {c : Char}, c ∈ rstripWs l → c ∈ l := by
  intro l
  induction l with
  | nil => intro c h; exact h
  | cons x xs ih =>
    intro c h
    simp only [rstripWs] at h
    cases hr : rstripWs xs with
    | nil =>
      rw [hr] at h
      by_cases hx : pyIsSpace x = true
      · rw [if_pos hx] at h
        simp at h
      · rw [if_neg hx] at h
        rcases List.mem_cons.mp h with h1 | h1
        · exact h1 ▸ List.mem_cons_self x xs
        · simp at h1
    | cons y ys =>
      rw [hr] at h
      rcases List.mem_cons.mp h with h1 | h1
      · exact h1 ▸ List.mem_cons_self x xs
      · exact List.mem_cons_of_mem x (ih (hr ▸ h1))

theorem lowerFixed_map_pyLower (l : List Char) : lowerFixed (l.map pyLower) = true := by
  rw [lowerFixed, List.all_map]
  rw [List.all_eq_true]
  intro x _
  simp only [Function.comp_apply, beq_iff_eq]
  exact pyLower_idem x

theorem lowerFixed_of_mem {l : List Char}
    (h : ∀ c ∈ l, pyLower c = c) : lowerFixed l = true := by
  rw [lowerFixed, List.all_eq_true]
  intro x hx
  exact beq_iff_eq.mpr (h x hx)

theorem lowerFixed_mem {l : List Char} (h : lowerFixed l = true) {c : Char}
    (hc : c ∈ l) : pyLower c = c :=
  beq_iff_eq.mp (List.all_eq_true.mp h c hc)

theorem rstrippedB_tail : ∀ {c : Char} {cs : List Char},
    rstrippedB (c :: cs) = true → rstrippedB cs = true := by
  intro c cs h
  cases cs with
  | nil => rfl
  | cons d ds => exact h

theorem rstrippedB_suffix : ∀ {l s : List Char}, rstrippedB l = true → s <:+ l →
    rstrippedB s = true := by
  intro l
  induction l with
  | nil =>
    intro s h hs
    rw [List.suffix_nil.mp hs]
    rfl
  | cons c cs ih =>
    intro s h hs
    rcases List.suffix_cons_iff.mp hs with h1 | h1
    · rw [h1]; exact h
    · exact ih (rstrippedB_tail h) h1

theorem rstrippedB_not_all_space : ∀ {x : Char} {xs : List Char},
    rstrippedB (x :: xs) = true → (x :: xs).all pyIsSpace = true → False := by
  intro x xs
  induction xs generalizing x with
  | nil =>
    intro h hall
    simp only [rstrippedB] at h
    simp only [List.all_cons, List.all_nil, Bool.and_true] at hall
    rw [hall] at h
    simp at h
  | cons y ys ih =>
    intro h hall
    simp only [List.all_cons, Bool.and_eq_true] at hall
    refine ih (rstrippedB_tail h) ?_
    simp only [List.all_cons, Bool.and_eq_true]
    exact hall.2

theorem all_space_suffix_nil {l s : List Char} (h : rstrippedB l = true)
    (hs : s <:+ l) (hall : s.all pyIsSpace = true) : s = [] := by
  cases s with
  | nil => rfl
  | cons x xs => exact absurd hall (by
      intro hc
      exact rstrippedB_not_all_space (rstrippedB_suffix h hs) hc)

theorem endingMatchAt_false_of (l : List Char) (hstrip : rstrippedB l = true)
    (hsuf : (ENDINGS.any fun e => e.data.isSuffixOf l) = false) :
    ∀ sfx, sfx <:+ l → endingMatchAt sfx = false := by
  intro sfx hsfx
  by_contra hc
  rw [Bool.not_eq_false] at hc
  obtain ⟨e, hmem, he⟩ := List.any_eq_true.mp hc
  obtain ⟨hpre, hall⟩ := Bool.and_eq_true_iff.mp he
  have hdropsuf : (sfx.drop e.data.length) <:+ l :=
    (List.drop_suffix e.data.length sfx).trans hsfx
  have hnil : sfx.drop e.data.length = [] := all_space_suffix_nil hstrip hdropsuf hall
  have hlen : sfx.length ≤ e.data.length := List.drop_eq_nil_iff.mp hnil
  have heq : e.data = sfx := by
    refine (List.isPrefixOf_iff_prefix.mp hpre).eq_of_length ?_
    have := ((List.isPrefixOf_iff_prefix.mp hpre)).length_le
    omega
  have : e.data.isSuffixOf l = true := by
    rw [List.isSuffixOf_iff_suffix, heq]
    exact hsfx
  have hany : (ENDINGS.any fun e => e.data.isSuffixOf l) = true :=
    List.any_eq_true.mpr ⟨e, hmem, this⟩
  rw [hsuf] at hany
  exact Bool.false_ne_true hany

theorem endingsSub_eq_self : ∀ l : List Char,
    (∀ sfx, sfx <:+ l → endingMatchAt sfx = false) → endingsSub l = l := by
  intro l
  induction l with
  | nil => intro _; rfl
  | cons c cs ih =>
    intro h
    simp only [endingsSub]
    rw [if_neg (by rw [h (c :: cs) (List.suffix_refl _)]; simp)]
    rw [ih fun sfx hs => h sfx (hs.trans (List.suffix_cons c cs))]

theorem mem_pyStrip {l : List Char} {c : Char} (h : c ∈ pyStrip l) : c ∈ l :=
  (List.dropWhile_sublist pyIsSpace).subset (mem_rstripWs h)

theorem normalize_fixed_point (s : String)
    (hl : lstripped s.data = true) (hr : rstrippedB s.data = true)
    (hcb : collapsedB s.data = true) (hlf : lowerFixed s.data = true)
    (hpm : hasParticleMatch false s.data = false)
    (hend : (ENDINGS.any fun e => e.data.isSuffixOf s.data) = false) :
    normalize_command s = s := by
  show String.mk (pyStrip (collapseWs (particleSubAux false
      (endingsSub ((pyStrip s.data).map pyLower))))) = s
  rw [pyStrip_eq_self hl hr]
  rw [map_pyLower_eq_self hlf]
  rw [endingsSub_eq_self _ (endingMatchAt_false_of s.data hr hend)]
  rw [particleSubAux_eq_self s.data.length s.data false le_rfl hpm]
  rw [collapseWs_eq_self _ hcb]
  rw [pyStrip_eq_self hl hr]

/-- C4 amended: the normalizer is not idempotent in general (see the
counterexample: each pass strips at most one trailing politeness suffix),
but it is idempotent on every input whose normalized form does not end
with a politeness suffix: if `normalize_command t` has no `ENDINGS`
member as a suffix, a second normalization is the identity. -/
theorem normalize_idempotent_of_no_trailing_suffix (t : String)
    (h : endsWithEnding (normalize_command t) = false) :
    normalize_command (normalize_command t) = normalize_command t := by
  have hdata : (normalize_command t).data = pyStrip (collapseWs (particleSubAux false
      (endingsSub ((pyStrip t.data).map pyLower)))) := rfl
  refine normalize_fixed_point (normalize_command t) ?_ ?_ ?_ ?_ ?_ ?_
  · rw [hdata]; exact lstripped_pyStrip _
  · rw [hdata]; exact rstripped_pyStrip _
  · rw [hdata]
    show collapsedB (rstripWs (lstripWs (collapseWs _))) = true
    exact collapsedB_rstripWs _ (collapsedB_dropWhile _ (collapsedB_collapseWs _))
  · rw [hdata]
    refine lowerFixed_of_mem ?_
    intro c hc
    have h1 : c ∈ collapseWs (particleSubAux false
        (endingsSub ((pyStrip t.data).map pyLower))) := mem_pyStrip hc
    rcases mem_collapseWs _ c h1 with h2 | h2
    · have h3 : c ∈ (pyStrip t.data).map pyLower :=
        mem_endingsSub (mem_particleSubFuel _ false _ c h2)
      obtain ⟨c0, _, hc0⟩ := List.mem_map.mp h3
      rw [← hc0]
      exact pyLower_idem c0
    · rw [h2]
      exact pyLower_sp
  · rw [hdata]
    show hasParticleMatch false (rstripWs (lstripWs (collapseWs _))) = false
    exact hasParticleMatch_rstripWs _ false (hasParticleMatch_dropWhile _
      (hasParticleMatch_collapseWs _ false
        (hasParticleMatch_particleSubAux _ _ false le_rfl)))
  · simpa [endsWithEnding] using h

theorem normalize_idempotent_witness :
    endsWithEnding (normalize_command "파드 목록 보여줘") = false ∧
    normalize_command "파드 목록 보여줘" = "파드 목록" ∧
    normalize_command (normalize_command "파드 목록 보여줘") =
      normalize_command "파드 목록 보여줘" :=
  ⟨by decide, by decide,
    normalize_idempotent_of_no_trailing_suffix "파드 목록 보여줘" (by decide)⟩
